import Mathlib

/-!
Verification of the DHDK journal/taxonomy query engine.

This file gives a shallow embedding of the program's core logic:

* `_normalise_identifier` — the identifier normalizer of
  `repositories.py` (`re.sub(r"[^0-9a-z]+", "", value.strip().lower())`);
* an object-graph model of the mutable `Category`/`Area` classes of
  `models.py` (heap of objects addressed by references), used for the
  bidirectional-link invariant;
* record models of the `Category`, `Area` and `Journal` domain objects as
  consumed by the engine, together with the engine's merge, taxonomy-build,
  hydration and query operations from `engine.py`, parameterised over the
  tabular data the registered handlers provide.

Python dicts and `OrderedDict`s are modelled as insertion-ordered
association lists, Python sets as insertion-ordered duplicate-free lists
(the claims proved about them are membership/intersection based and do not
depend on the iteration order of a set).
-/

/-! ## Identifier normalisation (`repositories._normalise_identifier`) -/

/-- Characters Python's `str.strip()` removes (ASCII whitespace). -/
def isSpaceChar (c : Char) : Bool :=
  c == ' ' || c == '\t' || c == '\n' || c == '\r' || c == '\x0b' || c == '\x0c'

/-- Characters kept by the regex `[^0-9a-z]+` substitution: `[0-9a-z]`. -/
def allowedChar (c : Char) : Bool :=
  (decide ('0' ≤ c) && decide (c ≤ '9')) || (decide ('a' ≤ c) && decide (c ≤ 'z'))

/-- `str.strip()` on a character list. -/
def pyStripList (l : List Char) : List Char :=
  ((l.dropWhile isSpaceChar).reverse.dropWhile isSpaceChar).reverse

/-- Python `value.strip()`. -/
def pyStrip (s : String) : String := String.mk (pyStripList s.toList)

/-- `repositories._normalise_identifier`: `""` for `None`, otherwise
`re.sub(r"[^0-9a-z]+", "", value.strip().lower())`. -/
def _normalise_identifier : Option String → String
  | none => ""
  | some v => String.mk (((pyStripList v.toList).map Char.toLower).filter allowedChar)

/-- Normalisation of a plain string value. -/
def _norm (s : String) : String := _normalise_identifier (some s)

theorem allowedChar_iff {c : Char} :
    allowedChar c = true ↔ ('0' ≤ c ∧ c ≤ '9') ∨ ('a' ≤ c ∧ c ≤ 'z') := by
  simp [allowedChar]

theorem isSpaceChar_false_of_allowed {c : Char} (h : allowedChar c = true) :
    isSpaceChar c = false := by
  rcases allowedChar_iff.mp h with ⟨h1, h2⟩ | ⟨h1, h2⟩ <;>
  · rw [Bool.eq_false_iff]
    intro hs
    simp only [isSpaceChar, Bool.or_eq_true, beq_iff_eq] at hs
    rcases hs with ((((rfl | rfl) | rfl) | rfl) | rfl) | rfl <;> revert h1 h2 <;> decide

theorem toLower_eq_self_of_allowed {c : Char} (h : allowedChar c = true) :
    Char.toLower c = c := by
  unfold Char.toLower
  have hn : ¬ (65 ≤ c.toNat ∧ c.toNat ≤ 90) := by
    rcases allowedChar_iff.mp h with ⟨h1, h2⟩ | ⟨h1, h2⟩
    · have a1 : 48 ≤ c.toNat := h1
      have a2 : c.toNat ≤ 57 := h2
      omega
    · have a1 : 97 ≤ c.toNat := h1
      omega
  simp only [ge_iff_le, Bool.and_eq_true, decide_eq_true_eq]
  split
  · next hc => exact absurd ⟨hc.1, hc.2⟩ hn
  · rfl

theorem dropWhile_eq_self_of_all {p : Char → Bool} {l : List Char}
    (h : ∀ c ∈ l, p c = false) : l.dropWhile p = l := by
  cases l with
  | nil => rfl
  | cons a as => simp [List.dropWhile_cons, h a (List.mem_cons_self a as)]

theorem pyStripList_eq_self_of_all {l : List Char}
    (h : ∀ c ∈ l, isSpaceChar c = false) : pyStripList l = l := by
  unfold pyStripList
  rw [dropWhile_eq_self_of_all h,
      dropWhile_eq_self_of_all (fun c hc => h c (List.mem_reverse.mp hc)),
      List.reverse_reverse]

theorem mem_norm_allowed {x : String} {c : Char}
    (h : c ∈ (_norm x).toList) : allowedChar c = true := by
  unfold _norm _normalise_identifier at h
  exact (List.mem_filter.mp h).2

/-- C5: the normalizer returns `""` for `None`/empty input, keeps only
`[0-9a-z]` characters, is idempotent, and identifies the hyphen/space/plain
spellings of an ISSN. -/
theorem normalise_identifier_spec :
    (_normalise_identifier none = "" ∧ _normalise_identifier (some "") = "")
    ∧ (∀ x : String, ((_normalise_identifier (some x)).toList.all allowedChar) = true)
    ∧ (∀ x : String,
        _normalise_identifier (some (_normalise_identifier (some x)))
          = _normalise_identifier (some x))
    ∧ (_normalise_identifier (some "1234-5678") = "12345678"
       ∧ _normalise_identifier (some "1234 5678") = "12345678"
       ∧ _normalise_identifier (some "12345678") = "12345678"
       ∧ _normalise_identifier (some " 1234-5678 ") = "12345678") := by
  refine ⟨⟨rfl, rfl⟩, ?_, ?_, by decide, by decide, by decide, by decide⟩
  · intro x
    exact List.all_eq_true.mpr (fun c hc => mem_norm_allowed hc)
  · intro x
    show _norm (_norm x) = _norm x
    have hall : ∀ c ∈ (_norm x).toList, allowedChar c = true :=
      fun c hc => mem_norm_allowed hc
    unfold _norm _normalise_identifier
    have h1 : pyStripList (_norm x).toList = (_norm x).toList :=
      pyStripList_eq_self_of_all
        (fun c hc => isSpaceChar_false_of_allowed (hall c hc))
    have h2 : ((_norm x).toList).map Char.toLower = (_norm x).toList := by
      rw [List.map_congr_left (fun c hc => toLower_eq_self_of_allowed (hall c hc)),
          List.map_id']
    have h3 : ((_norm x).toList).filter allowedChar = (_norm x).toList :=
      List.filter_eq_self.mpr hall
    show String.mk ((((_norm x).toList |> pyStripList).map Char.toLower).filter allowedChar)
        = _norm x
    rw [h1, h2, h3]
    rfl

/-! ## Object-graph model of `models.Category` / `models.Area`

The mutable Python objects are modelled as a heap: categories and areas are
addressed by numeric references, `catF`/`areaF` give the object stored at
each reference, and the `OrderedDict` link fields become insertion-ordered
association lists from entity id to reference.  Passing `None` for an
argument corresponds to an out-of-range reference (both are falsy /
unlinkable), and the reference guards keep the operations total. -/

namespace ObjGraph

/-- A `models.Category` object: trimmed id and the `_areas` OrderedDict. -/
structure CatObj where
  id : String
  areasL : List (String × Nat)

/-- A `models.Area` object: trimmed id and the `_categories` OrderedDict. -/
structure AreaObj where
  id : String
  catsL : List (String × Nat)

/-- Heap of constructed Category/Area objects. -/
structure TaxState where
  ncats : Nat
  nareas : Nat
  catF : Nat → CatObj
  areaF : Nat → AreaObj

/-- `OrderedDict.setdefault`: keep an existing key, else append. -/
def sd (l : List (String × Nat)) (key : String) (v : Nat) : List (String × Nat) :=
  if l.any (fun p => p.1 == key) then l else l ++ [(key, v)]

/-- `Category._link_area(self=c, area=a)`:
`if area and area.getId(): self._areas.setdefault(area.getId(), area)`. -/
def linkArea (s : TaxState) (c a : Nat) : TaxState :=
  if a < s.nareas ∧ (s.areaF a).id ≠ "" then
    { s with catF := fun i => if i = c then
        { s.catF c with areasL := sd (s.catF c).areasL (s.areaF a).id a }
      else s.catF i }
  else s

/-- `Area._link_category(self=a, category=c)`:
`if category and category.getId(): self._categories.setdefault(category.getId(), category)`. -/
def linkCategory (s : TaxState) (a c : Nat) : TaxState :=
  if c < s.ncats ∧ (s.catF c).id ≠ "" then
    { s with areaF := fun j => if j = a then
        { s.areaF a with catsL := sd (s.areaF a).catsL (s.catF c).id c }
      else s.areaF j }
  else s

/-- `Category.addArea(self=c, area=a)`:
`if area and area.getId(): self._link_area(area); area._link_category(self)`. -/
def addArea (s : TaxState) (c a : Nat) : TaxState :=
  if c < s.ncats ∧ a < s.nareas ∧ (s.areaF a).id ≠ "" then
    linkCategory (linkArea s c a) a c
  else s

/-- `Area.addCategory(self=a, category=c)`:
`if category and category.getId(): category._link_area(self); self._link_category(category)`. -/
def addCategory (s : TaxState) (a c : Nat) : TaxState :=
  if a < s.nareas ∧ c < s.ncats ∧ (s.catF c).id ≠ "" then
    linkCategory (linkArea s c a) a c
  else s

/-- One `addArea`/`addCategory` call in a call sequence. -/
inductive TaxOp where
  | addArea (c a : Nat)
  | addCategory (a c : Nat)

def applyOp (s : TaxState) : TaxOp → TaxState
  | .addArea c a => addArea s c a
  | .addCategory a c => addCategory s a c

def applyOps (s : TaxState) (ops : List TaxOp) : TaxState :=
  ops.foldl applyOp s

/-- The claimed invariant: area `a` is in category `c`'s area set iff
`c` is in `a`'s category set. -/
def mutualLinked (s : TaxState) : Prop :=
  ∀ c a, c < s.ncats → a < s.nareas →
    ((∃ k, (k, a) ∈ (s.catF c).areasL) ↔ (∃ k, (k, c) ∈ (s.areaF a).catsL))

/-- Every stored area link points at a valid area whose id is the key. -/
def wfCat (s : TaxState) : Prop :=
  ∀ c, c < s.ncats → ∀ k r, (k, r) ∈ (s.catF c).areasL →
    r < s.nareas ∧ (s.areaF r).id = k

/-- Every stored category link points at a valid category whose id is the key. -/
def wfArea (s : TaxState) : Prop :=
  ∀ a, a < s.nareas → ∀ k r, (k, r) ∈ (s.areaF a).catsL →
    r < s.ncats ∧ (s.catF r).id = k

/-- All live objects have nonempty ids, and ids are injective per kind. -/
def goodIds (s : TaxState) : Prop :=
  (∀ c, c < s.ncats → (s.catF c).id ≠ "")
  ∧ (∀ a, a < s.nareas → (s.areaF a).id ≠ "")
  ∧ (∀ c c', c < s.ncats → c' < s.ncats → (s.catF c).id = (s.catF c').id → c = c')
  ∧ (∀ a a', a < s.nareas → a' < s.nareas → (s.areaF a).id = (s.areaF a').id → a = a')

theorem sd_sub {l : List (String × Nat)} {key : String} {v : Nat} {p : String × Nat}
    (h : p ∈ sd l key v) : p ∈ l ∨ p = (key, v) := by
  unfold sd at h
  split at h
  · exact Or.inl h
  · rcases List.mem_append.mp h with h | h
    · exact Or.inl h
    · exact Or.inr (List.mem_singleton.mp h)

theorem sd_mono {l : List (String × Nat)} {key : String} {v : Nat} {p : String × Nat}
    (h : p ∈ l) : p ∈ sd l key v := by
  unfold sd
  split
  · exact h
  · exact List.mem_append.mpr (Or.inl h)

theorem mem_sd_self {l : List (String × Nat)} {key : String} {v : Nat}
    (hco : ∀ r, (key, r) ∈ l → r = v) : (key, v) ∈ sd l key v := by
  unfold sd
  split
  · next hany =>
      obtain ⟨p, hp, he⟩ := List.any_eq_true.mp hany
      have h1 : p.1 = key := by simpa using he
      have h2 : p = (key, p.2) := by rw [← h1]
      rw [h2] at hp
      have := hco p.2 hp
      rw [this] at hp
      exact hp
  · exact List.mem_append.mpr (Or.inr (List.mem_singleton.mpr rfl))

theorem mem_sd_other {l : List (String × Nat)} {key : String} {v : Nat}
    {k' : String} {v' : Nat} (hne : v' ≠ v) :
    (k', v') ∈ sd l key v ↔ (k', v') ∈ l := by
  constructor
  · intro h
    rcases sd_sub h with h | h
    · exact h
    · exact absurd (congrArg Prod.snd h) hne
  · exact sd_mono

theorem linkArea_static (s : TaxState) (c a : Nat) :
    (linkArea s c a).ncats = s.ncats ∧ (linkArea s c a).nareas = s.nareas
    ∧ (∀ i, ((linkArea s c a).catF i).id = (s.catF i).id)
    ∧ (∀ j, (linkArea s c a).areaF j = s.areaF j) := by
  unfold linkArea
  split
  · refine ⟨rfl, rfl, fun i => ?_, fun j => rfl⟩
    by_cases hi : i = c <;> simp [hi]
  · exact ⟨rfl, rfl, fun _ => rfl, fun _ => rfl⟩

theorem linkCategory_static (s : TaxState) (a c : Nat) :
    (linkCategory s a c).ncats = s.ncats ∧ (linkCategory s a c).nareas = s.nareas
    ∧ (∀ i, (linkCategory s a c).catF i = s.catF i)
    ∧ (∀ j, ((linkCategory s a c).areaF j).id = (s.areaF j).id) := by
  unfold linkCategory
  split
  · refine ⟨rfl, rfl, fun i => rfl, fun j => ?_⟩
    by_cases hj : j = a <;> simp [hj]
  · exact ⟨rfl, rfl, fun _ => rfl, fun _ => rfl⟩

theorem applyOp_static (s : TaxState) (o : TaxOp) :
    (applyOp s o).ncats = s.ncats ∧ (applyOp s o).nareas = s.nareas
    ∧ (∀ i, ((applyOp s o).catF i).id = (s.catF i).id)
    ∧ (∀ j, ((applyOp s o).areaF j).id = (s.areaF j).id) := by
  have comp : ∀ c a, (linkCategory (linkArea s c a) a c).ncats = s.ncats
      ∧ (linkCategory (linkArea s c a) a c).nareas = s.nareas
      ∧ (∀ i, ((linkCategory (linkArea s c a) a c).catF i).id = (s.catF i).id)
      ∧ (∀ j, ((linkCategory (linkArea s c a) a c).areaF j).id = (s.areaF j).id) := by
    intro c a
    obtain ⟨e1, e2, e3, e4⟩ := linkCategory_static (linkArea s c a) a c
    obtain ⟨f1, f2, f3, f4⟩ := linkArea_static s c a
    refine ⟨e1.trans f1, e2.trans f2, fun i => ?_, fun j => ?_⟩
    · rw [e3 i]; exact f3 i
    · rw [e4 j, f4 j]
  cases o with
  | addArea c a =>
      simp only [applyOp]
      unfold addArea
      split
      · exact comp c a
      · exact ⟨rfl, rfl, fun _ => rfl, fun _ => rfl⟩
  | addCategory a c =>
      simp only [applyOp]
      unfold addCategory
      split
      · exact comp c a
      · exact ⟨rfl, rfl, fun _ => rfl, fun _ => rfl⟩

theorem applyOps_static (s : TaxState) (ops : List TaxOp) :
    (applyOps s ops).ncats = s.ncats ∧ (applyOps s ops).nareas = s.nareas
    ∧ (∀ i, ((applyOps s ops).catF i).id = (s.catF i).id)
    ∧ (∀ j, ((applyOps s ops).areaF j).id = (s.areaF j).id) := by
  induction ops generalizing s with
  | nil => exact ⟨rfl, rfl, fun _ => rfl, fun _ => rfl⟩
  | cons o rest ih =>
      obtain ⟨e1, e2, e3, e4⟩ := ih (applyOp s o)
      obtain ⟨f1, f2, f3, f4⟩ := applyOp_static s o
      refine ⟨e1.trans f1, e2.trans f2, fun i => (e3 i).trans (f3 i),
        fun j => (e4 j).trans (f4 j)⟩

theorem goodIds_transfer {s s' : TaxState}
    (hn : s'.ncats = s.ncats) (hm : s'.nareas = s.nareas)
    (hci : ∀ i, (s'.catF i).id = (s.catF i).id)
    (hai : ∀ j, (s'.areaF j).id = (s.areaF j).id)
    (h : goodIds s) : goodIds s' := by
  obtain ⟨h1, h2, h3, h4⟩ := h
  refine ⟨fun c hc => ?_, fun a ha => ?_, fun c c' hc hc' he => ?_, fun a a' ha ha' he => ?_⟩
  · rw [hci c]; exact h1 c (hn ▸ hc)
  · rw [hai a]; exact h2 a (hm ▸ ha)
  · exact h3 c c' (hn ▸ hc) (hn ▸ hc') ((hci c).symm.trans (he.trans (hci c')))
  · exact h4 a a' (hm ▸ ha) (hm ▸ ha') ((hai a).symm.trans (he.trans (hai a')))

theorem step_core (s : TaxState) (c a : Nat)
    (hg : goodIds s) (hwc : wfCat s) (hwa : wfArea s) (hm : mutualLinked s)
    (hc : c < s.ncats) (ha : a < s.nareas) :
    wfCat (linkCategory (linkArea s c a) a c)
    ∧ wfArea (linkCategory (linkArea s c a) a c)
    ∧ mutualLinked (linkCategory (linkArea s c a) a c) := by
  obtain ⟨hgc, hga, hinjc, hinja⟩ := hg
  have haid : (s.areaF a).id ≠ "" := hga a ha
  have hcid : (s.catF c).id ≠ "" := hgc c hc
  have hLA : linkArea s c a
      = { s with catF := fun i => if i = c then
            { s.catF c with areasL := sd (s.catF c).areasL (s.areaF a).id a }
          else s.catF i } := by
    unfold linkArea
    rw [if_pos ⟨ha, haid⟩]
  have hLAcatc : (linkArea s c a).catF c
      = { s.catF c with areasL := sd (s.catF c).areasL (s.areaF a).id a } := by
    rw [hLA]; simp
  have hT : linkCategory (linkArea s c a) a c
      = { linkArea s c a with areaF := fun j => if j = a then
            { (linkArea s c a).areaF a with
                catsL := sd ((linkArea s c a).areaF a).catsL ((linkArea s c a).catF c).id c }
          else (linkArea s c a).areaF j } := by
    unfold linkCategory
    rw [if_pos]
    constructor
    · show c < (linkArea s c a).ncats
      rw [hLA]; exact hc
    · rw [hLAcatc]; exact hcid
  have hcatF : ∀ i, (linkCategory (linkArea s c a) a c).catF i
      = if i = c then { s.catF c with areasL := sd (s.catF c).areasL (s.areaF a).id a }
        else s.catF i := by
    intro i
    rw [hT]
    show (linkArea s c a).catF i = _
    rw [hLA]
  have hareaF : ∀ j, (linkCategory (linkArea s c a) a c).areaF j
      = if j = a then { s.areaF a with catsL := sd (s.areaF a).catsL (s.catF c).id c }
        else s.areaF j := by
    intro j
    rw [hT]
    show (if j = a then _ else _) = _
    by_cases hj : j = a
    · rw [if_pos hj, if_pos hj]
      have e1 : (linkArea s c a).areaF a = s.areaF a := by rw [hLA]
      have e2 : ((linkArea s c a).catF c).id = (s.catF c).id := by rw [hLAcatc]
      rw [e1, e2]
    · rw [if_neg hj, if_neg hj]
      rw [hLA]
  have hTn : (linkCategory (linkArea s c a) a c).ncats = s.ncats := by rw [hT, hLA]
  have hTm : (linkCategory (linkArea s c a) a c).nareas = s.nareas := by rw [hT, hLA]
  have hidT : ∀ r, ((linkCategory (linkArea s c a) a c).areaF r).id = (s.areaF r).id := by
    intro r
    rw [hareaF r]
    by_cases hra : r = a
    · rw [if_pos hra]; subst hra; rfl
    · rw [if_neg hra]
  have hidTc : ∀ r, ((linkCategory (linkArea s c a) a c).catF r).id = (s.catF r).id := by
    intro r
    rw [hcatF r]
    by_cases hrc : r = c
    · rw [if_pos hrc]; subst hrc; rfl
    · rw [if_neg hrc]
  have hkey : ∀ r, ((s.areaF a).id, r) ∈ (s.catF c).areasL → r = a := by
    intro r hr
    obtain ⟨hrlt, hrid⟩ := hwc c hc (s.areaF a).id r hr
    exact hinja r a hrlt ha hrid
  have hkey2 : ∀ r, ((s.catF c).id, r) ∈ (s.areaF a).catsL → r = c := by
    intro r hr
    obtain ⟨hrlt, hrid⟩ := hwa a ha (s.catF c).id r hr
    exact hinjc r c hrlt hc hrid
  refine ⟨?_, ?_, ?_⟩
  · intro ci hci k r hmem
    rw [hTn] at hci
    rw [hcatF ci] at hmem
    by_cases hic : ci = c
    · rw [if_pos hic] at hmem
      rcases sd_sub hmem with hold | heq
      · obtain ⟨h1, h2⟩ := hwc c hc k r hold
        exact ⟨by rw [hTm]; exact h1, by rw [hidT r]; exact h2⟩
      · injection heq with hk hr
        refine ⟨?_, ?_⟩
        · rw [hTm, hr]; exact ha
        · rw [hidT r, hr, hk]
    · rw [if_neg hic] at hmem
      obtain ⟨h1, h2⟩ := hwc ci hci k r hmem
      exact ⟨by rw [hTm]; exact h1, by rw [hidT r]; exact h2⟩
  · intro ai hai k r hmem
    rw [hTm] at hai
    rw [hareaF ai] at hmem
    by_cases hia : ai = a
    · rw [if_pos hia] at hmem
      rcases sd_sub hmem with hold | heq
      · obtain ⟨h1, h2⟩ := hwa a ha k r hold
        exact ⟨by rw [hTn]; exact h1, by rw [hidTc r]; exact h2⟩
      · injection heq with hk hr
        refine ⟨?_, ?_⟩
        · rw [hTn, hr]; exact hc
        · rw [hidTc r, hr, hk]
    · rw [if_neg hia] at hmem
      obtain ⟨h1, h2⟩ := hwa ai hai k r hmem
      exact ⟨by rw [hTn]; exact h1, by rw [hidTc r]; exact h2⟩
  · intro ci ai hci hai
    rw [hTn] at hci
    rw [hTm] at hai
    rw [hcatF ci, hareaF ai]
    by_cases hic : ci = c <;> by_cases hia : ai = a
    · subst hic; subst hia
      rw [if_pos rfl, if_pos rfl]
      exact iff_of_true ⟨(s.areaF ai).id, mem_sd_self hkey⟩
        ⟨(s.catF ci).id, mem_sd_self hkey2⟩
    · subst hic
      rw [if_pos rfl, if_neg hia]
      have hiff : (∃ k, (k, ai) ∈ sd (s.catF ci).areasL (s.areaF a).id a)
          ↔ (∃ k, (k, ai) ∈ (s.catF ci).areasL) := by
        constructor
        · rintro ⟨k, hk⟩
          exact ⟨k, (mem_sd_other hia).mp hk⟩
        · rintro ⟨k, hk⟩
          exact ⟨k, sd_mono hk⟩
      exact hiff.trans (hm ci ai hci hai)
    · subst hia
      rw [if_neg hic, if_pos rfl]
      have hiff : (∃ k, (k, ci) ∈ sd (s.areaF ai).catsL (s.catF c).id c)
          ↔ (∃ k, (k, ci) ∈ (s.areaF ai).catsL) := by
        constructor
        · rintro ⟨k, hk⟩
          exact ⟨k, (mem_sd_other hic).mp hk⟩
        · rintro ⟨k, hk⟩
          exact ⟨k, sd_mono hk⟩
      exact (hm ci ai hci hai).trans hiff.symm
    · rw [if_neg hic, if_neg hia]
      exact hm ci ai hci hai

theorem applyOp_preserves (s : TaxState) (o : TaxOp)
    (hg : goodIds s) (hwc : wfCat s) (hwa : wfArea s) (hm : mutualLinked s) :
    wfCat (applyOp s o) ∧ wfArea (applyOp s o) ∧ mutualLinked (applyOp s o) := by
  cases o with
  | addArea c a =>
      simp only [applyOp]
      unfold addArea
      split
      · next hcond => exact step_core s c a hg hwc hwa hm hcond.1 hcond.2.1
      · exact ⟨hwc, hwa, hm⟩
  | addCategory a c =>
      simp only [applyOp]
      unfold addCategory
      split
      · next hcond => exact step_core s c a hg hwc hwa hm hcond.2.1 hcond.1
      · exact ⟨hwc, hwa, hm⟩

theorem applyOps_preserves (ops : List TaxOp) : ∀ (s : TaxState),
    goodIds s → wfCat s → wfArea s → mutualLinked s →
    wfCat (applyOps s ops) ∧ wfArea (applyOps s ops) ∧ mutualLinked (applyOps s ops) := by
  induction ops with
  | nil => exact fun s _ h1 h2 h3 => ⟨h1, h2, h3⟩
  | cons o rest ih =>
      intro s hg h1 h2 h3
      obtain ⟨k1, k2, k3⟩ := applyOp_preserves s o hg h1 h2 h3
      obtain ⟨e1, e2, e3, e4⟩ := applyOp_static s o
      exact ih (applyOp s o) (goodIds_transfer e1 e2 e3 e4 hg) k1 k2 k3

/-- C2 amended: starting from freshly constructed categories and areas whose
identifiers are nonempty after trimming and pairwise distinct per kind, any
finite sequence of `Category.addArea`/`Area.addCategory` calls keeps the
Category↔Area link mutual in both directions. -/
theorem category_area_links_mutual (s0 : TaxState) (ops : List TaxOp)
    (hfreshC : ∀ c, c < s0.ncats → (s0.catF c).areasL = [])
    (hfreshA : ∀ a, a < s0.nareas → (s0.areaF a).catsL = [])
    (hids : goodIds s0) :
    mutualLinked (applyOps s0 ops) := by
  have hwc : wfCat s0 := by
    intro c hc k r hm
    rw [hfreshC c hc] at hm
    exact absurd hm (List.not_mem_nil _)
  have hwa : wfArea s0 := by
    intro a ha k r hm
    rw [hfreshA a ha] at hm
    exact absurd hm (List.not_mem_nil _)
  have hm0 : mutualLinked s0 := by
    intro c a hc ha
    rw [hfreshC c hc, hfreshA a ha]
    simp
  exact (applyOps_preserves ops s0 hids hwc hwa hm0).2.2

/-- Witness for the amended C2 theorem at a concrete heap: one category
`"c"`, one area `"x"`, one `addArea` call. -/
theorem category_area_links_mutual_witness :
    mutualLinked (applyOps
      ⟨1, 1, fun _ => ⟨"c", []⟩, fun _ => ⟨"x", []⟩⟩ [TaxOp.addArea 0 0]) := by
  refine category_area_links_mutual _ _ (fun _ _ => rfl) (fun _ _ => rfl)
    ⟨fun c _ => by show ("c" : String) ≠ ""; decide,
     fun a _ => by show ("x" : String) ≠ ""; decide,
     fun c c' hc hc' _ => by
       have h1 : c < 1 := hc
       have h2 : c' < 1 := hc'
       omega,
     fun a a' ha ha' _ => by
       have h1 : a < 1 := ha
       have h2 : a' < 1 := ha'
       omega⟩

/-- The heap refuting C2 as stated: a freshly constructed `Category("")`
(empty id) and `Area("x")`. -/
def cexState1 : TaxState :=
  { ncats := 1, nareas := 1,
    catF := fun _ => { id := "", areasL := [] },
    areaF := fun _ => { id := "x", catsL := [] } }

/-- The second refuting heap: `Category("c")` and two distinct `Area("x")`
objects sharing one identifier. -/
def cexState2 : TaxState :=
  { ncats := 1, nareas := 2,
    catF := fun _ => { id := "c", areasL := [] },
    areaF := fun _ => { id := "x", catsL := [] } }

/-- C2 counterexample: after `Category("").addArea(Area("x"))` the area is in
the category's area set but the back link is missing; and with two distinct
areas that share the id `"x"`, `addArea` of both leaves the second area
holding the category without the converse link.  The claimed invariant fails
on both freshly constructed heaps. -/
theorem category_area_links_mutual_cex :
    ¬ mutualLinked (applyOps cexState1 [TaxOp.addArea 0 0])
    ∧ ¬ mutualLinked (applyOps cexState2 [TaxOp.addArea 0 0, TaxOp.addArea 0 1]) := by
  constructor
  · intro h
    have hmem : ("x", 0) ∈ ((applyOps cexState1 [TaxOp.addArea 0 0]).catF 0).areasL := by
      decide
    obtain ⟨k, hk⟩ := (h 0 0 (by decide) (by decide)).mp ⟨"x", hmem⟩
    have he : ((applyOps cexState1 [TaxOp.addArea 0 0]).areaF 0).catsL = [] := by
      decide
    rw [he] at hk
    exact absurd hk (List.not_mem_nil _)
  · intro h
    have hmem : ("c", 0) ∈ ((applyOps cexState2 [TaxOp.addArea 0 0, TaxOp.addArea 0 1]).areaF 1).catsL := by
      decide
    obtain ⟨k, hk⟩ := (h 0 1 (by decide) (by decide)).mpr ⟨"c", hmem⟩
    have he : ((applyOps cexState2 [TaxOp.addArea 0 0, TaxOp.addArea 0 1]).catF 0).areasL
        = [("x", 0)] := by
      decide
    rw [he] at hk
    have := List.mem_singleton.mp hk
    injection this with h1 h2
    exact absurd h2 (by decide)

end ObjGraph

/-! ## Engine-side domain records

`engine._build_taxonomy` creates one `Category`/`Area` object per map key
and the engine only ever reads the `getId()` of objects stored in a link
`OrderedDict` (whose key equals that id), so the cyclic Python object graph
is represented acyclically: link fields hold the linked entity identifiers
(the dict keys).  All scalar fields are stored trimmed, as
`IdentifiableEntity.__init__` does. -/

/-- `models.Category` as consumed by the engine. -/
structure Category where
  id : String
  name : String
  quartiles : List String
  areas : List String
deriving DecidableEq

/-- `models.Area` as consumed by the engine. -/
structure Area where
  id : String
  name : String
  categories : List String
deriving DecidableEq

/-- One merged journal row (the fixed `JournalQueryHandler.COLUMNS` schema). -/
structure Row where
  id : String
  title : String
  print_issn : String
  electronic_issn : String
  languages : List String
  publisher : String
  doaj_seal : Bool
  license : String
  apc : Bool
  identifiers : List String
deriving DecidableEq

/-- `models.Journal`. -/
structure Journal where
  id : String
  name : String
  title : String
  print_issn : String
  electronic_issn : String
  publisher : String
  languages : List String
  license : String
  has_apc : Bool
  has_doaj_seal : Bool
  categories : List Category
  areas : List Area
deriving DecidableEq

/-! Association-list helpers modelling Python dict operations. -/

/-- `set.add` / `OrderedDict.setdefault` on a key list. -/
def sdStr (l : List String) (k : String) : List String :=
  if l.contains k then l else l ++ [k]

/-- `set.update` (insertion-ordered union model of Python set union). -/
def unionStr (a b : List String) : List String :=
  b.foldl sdStr a

/-- `dict.get`. -/
def aGet {α : Type} (l : List (String × α)) (k : String) : Option α :=
  (l.find? (fun p => p.1 == k)).map (fun p => p.2)

/-- `k in dict`. -/
def aHas {α : Type} (l : List (String × α)) (k : String) : Bool :=
  l.any (fun p => p.1 == k)

/-- In-place mutation of the value stored under an existing key. -/
def aMap {α : Type} (l : List (String × α)) (k : String) (f : α → α) :
    List (String × α) :=
  l.map (fun p => if p.1 == k then (p.1, f p.2) else p)

/-- `record = d.setdefault(k, d0)` followed by mutating `record` by `f`. -/
def aUpd {α : Type} (l : List (String × α)) (k : String) (d : α) (f : α → α) :
    List (String × α) :=
  if aHas l k then aMap l k f else l ++ [(k, f d)]

/-- `d[k] = v` on a key known to be present-or-appended. -/
def aSet {α : Type} (l : List (String × α)) (k : String) (v : α) :
    List (String × α) :=
  if aHas l k then aMap l k (fun _ => v) else l ++ [(k, v)]

/-- `identifier.replace("-", "")`. -/
def stripHyphens (s : String) : String :=
  String.mk (s.toList.filter (fun c => c != '-'))

/-- The truthiness test Python applies to an optional string
(`if not canonical`, `if not target`): `None` and `""` are falsy. -/
def truthyOpt : Option String → Option String
  | some s => if s = "" then none else some s
  | none => none

/-- Python-set of normalised truthy inputs:
`{_normalise_identifier(x) for x in xs or [] if x}`. -/
def dedupStr (l : List String) : List String :=
  l.foldl (fun acc x => if acc.contains x then acc else acc ++ [x]) []

def normSet (l : List String) : List String :=
  dedupStr ((l.filter (fun x => x != "")).map _norm)

/-- Nonempty set intersection test (`s1.intersection(s2)` used as a Bool). -/
def interB (a b : List String) : Bool :=
  a.any (fun x => b.contains x)

/-! ### Domain object constructors and mutators (`models.py`) -/

/-- `Category.__init__`: id and display name are the trimmed identifier. -/
def mkCategory (category_id : Option String) : Category :=
  { id := pyStrip (category_id.getD ""), name := pyStrip (category_id.getD ""),
    quartiles := [], areas := [] }

/-- `Area.__init__`. -/
def mkArea (area_id : Option String) : Area :=
  { id := pyStrip (area_id.getD ""), name := pyStrip (area_id.getD ""),
    categories := [] }

/-- `Category.addQuartile`. -/
def Category.addQuartile (c : Category) (q : Option String) : Category :=
  match q with
  | none => c
  | some qv =>
      if qv ≠ "" then
        let qc := pyStrip qv
        if qc ≠ "" then { c with quartiles := sdStr c.quartiles qc } else c
      else c

/-- `Category.addArea` (including the back link made by
`Area._link_category`); returns the updated category and area. -/
def Category.addArea (c : Category) (a : Area) : Category × Area :=
  if a.id ≠ "" then
    let c' := if a.id ≠ "" then { c with areas := sdStr c.areas a.id } else c
    let a' := if c.id ≠ "" then { a with categories := sdStr a.categories c.id } else a
    (c', a')
  else (c, a)

/-- `Journal.addCategory`: `self._categories.setdefault(category.getId(), category)`. -/
def Journal.addCategory (j : Journal) (c : Category) : Journal :=
  if c.id ≠ "" then
    { j with categories :=
        if j.categories.any (fun d => d.id == c.id) then j.categories
        else j.categories ++ [c] }
  else j

/-- `Journal.addArea`. -/
def Journal.addArea (j : Journal) (a : Area) : Journal :=
  if a.id ≠ "" then
    { j with areas :=
        if j.areas.any (fun d => d.id == a.id) then j.areas
        else j.areas ++ [a] }
  else j

/-- `Journal.__init__` from a merged row, as `_build_journal_objects` calls it
(`bool` coercions applied, list fields defaulted, strings trimmed). -/
def mkJournal (r : Row) : Journal :=
  { id := pyStrip r.id, name := pyStrip r.title,
    title := pyStrip r.title,
    print_issn := pyStrip r.print_issn,
    electronic_issn := pyStrip r.electronic_issn,
    publisher := pyStrip r.publisher,
    languages := (r.languages.filter (fun l => (l != "") && (pyStrip l != ""))).map pyStrip,
    license := pyStrip r.license,
    has_apc := r.apc,
    has_doaj_seal := r.doaj_seal,
    categories := [], areas := [] }

/-! ### Taxonomy exports and their merge (`engine._collect_category_exports`) -/

/-- Per-category record of a taxonomy export. -/
structure CatData where
  quartiles : List String
  areas : List String
deriving DecidableEq

/-- The shape of `SQLiteCategoryRepository.export_all()`. -/
structure Export where
  categories : List (String × CatData)
  areas : List (String × List String)
  journal_categories : List (String × List (String × List String))
  journal_areas : List (String × List String)
  journal_alias : List (String × String)
deriving DecidableEq

/-- Fold one handler's export into the combined export, mirroring the loop
body of `_collect_category_exports` (per-field set union; alias keys keep
the first-seen mapping). -/
def mergeOne (comb : Export) (ex : Export) : Export :=
  { categories := ex.categories.foldl (fun m p =>
      aUpd m p.1 ⟨[], []⟩ (fun r =>
        { r with quartiles := unionStr r.quartiles p.2.quartiles,
                 areas := unionStr r.areas p.2.areas })) comb.categories,
    areas := ex.areas.foldl (fun m p =>
      aUpd m p.1 [] (fun r => unionStr r p.2)) comb.areas,
    journal_categories := ex.journal_categories.foldl (fun m p =>
      aUpd m p.1 [] (fun jrec =>
        p.2.foldl (fun jrec q => aUpd jrec q.1 [] (fun s => unionStr s q.2)) jrec))
      comb.journal_categories,
    journal_areas := ex.journal_areas.foldl (fun m p =>
      aUpd m p.1 [] (fun s => unionStr s p.2)) comb.journal_areas,
    journal_alias := ex.journal_alias.foldl (fun m p =>
      if aHas m p.1 then m else m ++ [(p.1, p.2)]) comb.journal_alias }

/-- `BasicQueryEngine._collect_category_exports` over the registered category
handlers' repository exports. -/
def _collect_category_exports (exps : List Export) : Export :=
  exps.foldl mergeOne ⟨[], [], [], [], []⟩

/-! ### Taxonomy materialisation (`engine._build_taxonomy`) -/

/-- Loop body of the first loop of `_build_taxonomy`:
`category = category_map.setdefault(cid, Category(cid))` followed by
`category.addQuartile(quartile)` for each exported quartile. -/
def catMapStep (m : List (String × Category)) (p : String × CatData) :
    List (String × Category) :=
  let m' := if aHas m p.1 then m else m ++ [(p.1, mkCategory (some p.1))]
  aMap m' p.1 (fun c => p.2.quartiles.foldl (fun c q => c.addQuartile (some q)) c)

/-- First loop of `_build_taxonomy`: materialise categories and wire
quartiles. -/
def buildCategoryMap (entries : List (String × CatData)) : List (String × Category) :=
  entries.foldl catMapStep []

/-- Loop body of the second loop of `_build_taxonomy`:
`category = category_map.setdefault(cid, Category(cid)); category.addArea(area)`
for one `cid` of area `aid` (the updated objects are written back to their
maps, mirroring the in-place mutation of the shared Python objects). -/
def linkStep (aid : String)
    (st2 : List (String × Category) × List (String × Area)) (cid : String) :
    List (String × Category) × List (String × Area) :=
  let cm := if aHas st2.1 cid then st2.1 else st2.1 ++ [(cid, mkCategory (some cid))]
  let c := (aGet cm cid).getD (mkCategory (some cid))
  let a := (aGet st2.2 aid).getD (mkArea (some aid))
  let ca := Category.addArea c a
  (aSet cm cid ca.1, aSet st2.2 aid ca.2)

/-- Second loop of `_build_taxonomy`: materialise one area and wire the
bidirectional category↔area links for it. -/
def buildAreaStep (st : List (String × Category) × List (String × Area))
    (p : String × List String) : List (String × Category) × List (String × Area) :=
  let am := if aHas st.2 p.1 then st.2 else st.2 ++ [(p.1, mkArea (some p.1))]
  p.2.foldl (linkStep p.1) (st.1, am)

/-- `BasicQueryEngine._build_taxonomy`. -/
def _build_taxonomy (exps : List Export) :
    List (String × Category) × List (String × Area) × Export :=
  let ex := _collect_category_exports exps
  let cm := buildCategoryMap ex.categories
  let st := ex.areas.foldl buildAreaStep (cm, [])
  (st.1, st.2, ex)

/-! ### Journal hydration (`engine._build_journal_objects`) -/

/-- The alias lookup of the hydration loop: try the normalised identifier,
then the normalised hyphen-stripped identifier; an absent key or a falsy
canonical id means no match. -/
def resolveAlias (aliasMap : List (String × String)) (ident : String) :
    Option String :=
  match truthyOpt (aGet aliasMap (_norm ident)) with
  | some canonical => some canonical
  | none => truthyOpt (aGet aliasMap (_norm (stripHyphens ident)))

/-- `category = category_map.get(category_id); if category: journal.addCategory(category)`
for one key of the canonical id's journal-category map. -/
def attachCategoriesStep (cm : List (String × Category)) (j : Journal)
    (cq : String × List String) : Journal :=
  match aGet cm cq.1 with
  | some category => j.addCategory category
  | none => j

/-- `area = area_map.get(area_id); if area: journal.addArea(area)`. -/
def attachAreasStep (am : List (String × Area)) (j : Journal) (aid : String) :
    Journal :=
  match aGet am aid with
  | some area => j.addArea area
  | none => j

/-- One iteration of the hydration loop: if the identifier resolves, attach
the canonical id's categories, then its areas, to the journal. -/
def hydrateStep (cm : List (String × Category)) (am : List (String × Area))
    (aliasMap : List (String × String))
    (jc : List (String × List (String × List String)))
    (ja : List (String × List String)) (j : Journal) (ident : String) : Journal :=
  match resolveAlias aliasMap ident with
  | none => j
  | some canonical =>
      let j' := ((aGet jc canonical).getD []).foldl (attachCategoriesStep cm) j
      ((aGet ja canonical).getD []).foldl (attachAreasStep am) j'

/-- Hydrate one merged row: construct the `Journal`, then for every truthy
identifier that resolves through the alias map attach the canonical id's
categories and areas. -/
def hydrateRow (cm : List (String × Category)) (am : List (String × Area))
    (aliasMap : List (String × String))
    (jc : List (String × List (String × List String)))
    (ja : List (String × List String)) (r : Row) : Journal :=
  (r.identifiers.filter (fun i => i != "")).foldl
    (hydrateStep cm am aliasMap jc ja) (mkJournal r)

/-- `BasicQueryEngine._build_journal_objects`. -/
def _build_journal_objects (exps : List Export) (frame : List Row) : List Journal :=
  let t := _build_taxonomy exps
  frame.map (hydrateRow t.1 t.2.1 t.2.2.journal_alias t.2.2.journal_categories t.2.2.journal_areas)

/-! ### Fan-out merge (`engine._collect_journal_frames`) -/

/-- `DataFrame.drop_duplicates(subset="id", keep="first")`. -/
def dedupByIdAux (seen : List String) : List Row → List Row
  | [] => []
  | r :: rs =>
      if seen.contains r.id then dedupByIdAux seen rs
      else r :: dedupByIdAux (r.id :: seen) rs

/-- `BasicQueryEngine._collect_journal_frames` applied to the tabular outputs
of the registered journal handlers: drop empty frames, concatenate in
registration order, deduplicate by id keeping the first occurrence. -/
def _collect_journal_frames (handlerFrames : List (List Row)) : List Row :=
  let frames := handlerFrames.filter (fun f => !f.isEmpty)
  dedupByIdAux [] frames.flatten

/-! ### In-memory journal store queries (`repositories._InMemoryJournalStore`)

A handler is modelled by the row table of its backing store after a single
load (`add_records` batch); a handler with no repository behaves like a
store whose table is empty.  `pandas.str.contains(..., case=False,
na=False)` is modelled as a case-insensitive substring test. -/

/-- Case-insensitive substring containment. -/
def containsCI (hay needle : String) : Bool :=
  let h := hay.toList.map Char.toLower
  let n := needle.toList.map Char.toLower
  (List.range (h.length + 1)).any (fun i => ((h.drop i).take n.length) == n)

/-- `store.all()`. -/
def storeAll (rows : List Row) : List Row := rows

/-- `store.by_title`: falsy fragment returns the whole frame. -/
def by_title (rows : List Row) (title_part : Option String) : List Row :=
  match title_part with
  | none => rows
  | some tp => if tp = "" then rows else rows.filter (fun r => containsCI r.title tp)

/-- `store.by_publisher`. -/
def by_publisher (rows : List Row) (publisher_part : Option String) : List Row :=
  match publisher_part with
  | none => rows
  | some pp => if pp = "" then rows else rows.filter (fun r => containsCI r.publisher pp)

/-- `store.by_license`. -/
def by_license (rows : List Row) (licenses : List String) : List Row :=
  let license_norm := normSet licenses
  if license_norm.isEmpty then rows
  else rows.filter (fun r => license_norm.contains (_norm r.license))

/-- `store.with_apc`. -/
def with_apc (rows : List Row) : List Row :=
  rows.filter (fun r => r.apc == true)

/-- `store.with_doaj_seal`. -/
def with_doaj_seal (rows : List Row) : List Row :=
  rows.filter (fun r => r.doaj_seal == true)

/-- The `_index` built by `add_records` for a single batch: for every truthy
normalised identifier, map it (and its hyphen-stripped normalisation, an
identical key) to the record's id, later records overwriting earlier ones. -/
def buildIndex (rows : List Row) : List (String × String) :=
  rows.foldl (fun ix r =>
    r.identifiers.foldl (fun ix i =>
      let n := _norm i
      if n ≠ "" then aSet (aSet ix n r.id) (_norm (stripHyphens i)) r.id else ix) ix) []

/-- `store.by_identifier`. -/
def by_identifier (rows : List Row) (ident : String) : List Row :=
  if ident = "" then []
  else
    let ix := buildIndex rows
    let target := match truthyOpt (aGet ix (_norm ident)) with
      | some t => some t
      | none => truthyOpt (aGet ix (_norm (stripHyphens ident)))
    let maskRows := rows.filter (fun r =>
      r.identifiers.any (fun i => _norm ident == _norm i))
    match target with
    | some t =>
        let frame := rows.filter (fun r => r.id == t)
        if !frame.isEmpty then frame else maskRows
    | none => maskRows

/-! ### The query engine (`engine.BasicQueryEngine` / `engine.FullQueryEngine`)

The engine's state is the list of registered journal handlers (each given by
its store's row table) and the list of registered category handlers (each
given by its repository's export). -/

structure Engine where
  journalQuery : List (List Row)
  categoryQuery : List Export

inductive Entity where
  | journal (j : Journal)
  | category (c : Category)
  | area (a : Area)
deriving DecidableEq

def _find_category_by_identifier (cm : List (String × Category)) (ident : String) :
    Option Category :=
  (cm.map (fun p => p.2)).find? (fun category => _norm category.id == _norm ident)

def _find_area_by_identifier (am : List (String × Area)) (ident : String) :
    Option Area :=
  (am.map (fun p => p.2)).find? (fun area => _norm area.id == _norm ident)

def getEntityById (e : Engine) (ident : String) : Option Entity :=
  let frame := _collect_journal_frames
    (e.journalQuery.map (fun rows => by_identifier rows ident))
  match _build_journal_objects e.categoryQuery frame with
  | j :: _ => some (Entity.journal j)
  | [] =>
      match _find_category_by_identifier (_build_taxonomy e.categoryQuery).1 ident with
      | some c => some (Entity.category c)
      | none =>
          match _find_area_by_identifier (_build_taxonomy e.categoryQuery).2.1 ident with
          | some a => some (Entity.area a)
          | none => none

def getAllJournals (e : Engine) : List Journal :=
  _build_journal_objects e.categoryQuery
    (_collect_journal_frames (e.journalQuery.map storeAll))

def getJournalsWithTitle (e : Engine) (title_part : Option String) : List Journal :=
  _build_journal_objects e.categoryQuery
    (_collect_journal_frames (e.journalQuery.map (fun rows => by_title rows title_part)))

def getJournalsPublishedBy (e : Engine) (publisher_part : Option String) : List Journal :=
  _build_journal_objects e.categoryQuery
    (_collect_journal_frames (e.journalQuery.map (fun rows => by_publisher rows publisher_part)))

def getJournalsWithLicense (e : Engine) (licenses : List String) : List Journal :=
  _build_journal_objects e.categoryQuery
    (_collect_journal_frames (e.journalQuery.map (fun rows => by_license rows licenses)))

def getJournalsWithAPC (e : Engine) : List Journal :=
  _build_journal_objects e.categoryQuery
    (_collect_journal_frames (e.journalQuery.map with_apc))

def getJournalsWithDOAJSeal (e : Engine) : List Journal :=
  _build_journal_objects e.categoryQuery
    (_collect_journal_frames (e.journalQuery.map with_doaj_seal))

def getAllCategories (e : Engine) : List Category :=
  ((_build_taxonomy e.categoryQuery).1).map (fun p => p.2)

def getAllAreas (e : Engine) : List Area :=
  ((_build_taxonomy e.categoryQuery).2.1).map (fun p => p.2)

def getCategoriesWithQuartile (e : Engine) (quartiles : List String) : List Category :=
  let target := normSet quartiles
  (getAllCategories e).filter (fun category =>
    target.isEmpty || interB (dedupStr (category.quartiles.map _norm)) target)

def getCategoriesAssignedToAreas (e : Engine) (areas : List String) : List Category :=
  let target := normSet areas
  (getAllCategories e).filter (fun category =>
    target.isEmpty || interB (dedupStr (category.areas.map _norm)) target)

def getAreasAssignedToCategories (e : Engine) (categories : List String) : List Area :=
  let target := normSet categories
  (getAllAreas e).filter (fun area =>
    target.isEmpty || interB (dedupStr (area.categories.map _norm)) target)

/-! Full tier. -/

def _journal_dataframe (e : Engine) : List Row :=
  _collect_journal_frames (e.journalQuery.map storeAll)

def _select_journals_by_license (df : List Row) (licenses : List String) : List Row :=
  let license_norm := normSet licenses
  if df.isEmpty || license_norm.isEmpty then df
  else df.filter (fun r => license_norm.contains (_norm r.license))

def getJournalsInCategoriesWithQuartile (e : Engine)
    (categories quartiles : List String) : List Journal :=
  let requested_categories := normSet categories
  let requested_quartiles := normSet quartiles
  let journals := _build_journal_objects e.categoryQuery (_journal_dataframe e)
  journals.filter (fun journal =>
    journal.categories.any (fun category =>
      (requested_categories.isEmpty || requested_categories.contains (_norm category.id))
      && (requested_quartiles.isEmpty
          || interB (dedupStr (category.quartiles.map _norm)) requested_quartiles)))

def getJournalsInAreasWithLicense (e : Engine)
    (areas licenses : List String) : List Journal :=
  let requested_areas := normSet areas
  let journals := _build_journal_objects e.categoryQuery
    (_select_journals_by_license (_journal_dataframe e) licenses)
  journals.filter (fun journal =>
    requested_areas.isEmpty
    || interB (dedupStr (journal.areas.map (fun a => _norm a.id))) requested_areas)

def getDiamondJournalsInAreasAndCategoriesWithQuartile (e : Engine)
    (areas categories quartiles : List String) : List Journal :=
  let requested_areas := normSet areas
  let requested_categories := normSet categories
  let requested_quartiles := normSet quartiles
  let df := (_journal_dataframe e).filter (fun r => r.apc == false)
  let journals := _build_journal_objects e.categoryQuery df
  journals.filter (fun journal =>
    (requested_areas.isEmpty
     || interB (dedupStr (journal.areas.map (fun a => _norm a.id))) requested_areas)
    && journal.categories.any (fun category =>
        (requested_categories.isEmpty
         || requested_categories.contains (_norm category.id))
        && (requested_quartiles.isEmpty
            || interB (dedupStr (category.quartiles.map _norm)) requested_quartiles)))

/-! Handler registration.  Handlers compare by object identity in Python
(`handler not in self.journalQuery`), so they are modelled as references;
`None` is the falsy argument. -/

def addJournalHandler (handlers : List Nat) (handler : Option Nat) : Bool × List Nat :=
  match handler with
  | none => (false, handlers)
  | some h => if handlers.contains h then (false, handlers) else (true, handlers ++ [h])

def addCategoryHandler (handlers : List Nat) (handler : Option Nat) : Bool × List Nat :=
  match handler with
  | none => (false, handlers)
  | some h => if handlers.contains h then (false, handlers) else (true, handlers ++ [h])

/-! ## Concrete data used by witnesses, counterexamples and the §8.6 example -/

/-- The §8.6 diamond-query example: journal `"A"`, APC-free. -/
def rowA : Row :=
  { id := "A", title := "Journal A", print_issn := "", electronic_issn := "",
    languages := [], publisher := "", doaj_seal := false, license := "",
    apc := false, identifiers := ["A"] }

/-- The §8.6 diamond-query example: journal `"B"`, APC-charging. -/
def rowB : Row :=
  { id := "B", title := "Journal B", print_issn := "", electronic_issn := "",
    languages := [], publisher := "", doaj_seal := false, license := "",
    apc := true, identifiers := ["B"] }

/-- The §8.6 taxonomy: `"A"` → category `"C1"` with quartile `"Q1"`, both
journals in area `"bio"`. -/
def exampleExport : Export :=
  { categories := [("C1", ⟨["Q1"], ["bio"]⟩)],
    areas := [("bio", ["C1"])],
    journal_categories := [("A", [("C1", ["Q1"])])],
    journal_areas := [("A", ["bio"]), ("B", ["bio"])],
    journal_alias := [("a", "A"), ("b", "B")] }

def exampleEngine : Engine :=
  { journalQuery := [[rowA, rowB]], categoryQuery := [exampleExport] }

/-- Category map with two distinct taxonomy categories, for the hydration
counterexample. -/
def cexCatMap : List (String × Category) :=
  [("C1", { id := "C1", name := "C1", quartiles := [], areas := [] }),
   ("C2", { id := "C2", name := "C2", quartiles := [], areas := [] })]

/-- A row carrying two identifiers that alias to different canonical
taxonomy ids. -/
def cexRowTwoIds : Row :=
  { id := "J", title := "", print_issn := "", electronic_issn := "",
    languages := [], publisher := "", doaj_seal := false, license := "",
    apc := false, identifiers := ["i1", "i2"] }

/-! ## C3: first-occurrence deduplication of the fan-out merge -/

theorem dedupByIdAux_filter (x : String) :
    ∀ (l : List Row) (seen : List String),
    (dedupByIdAux seen l).filter (fun r => r.id == x)
      = if seen.contains x then [] else (l.filter (fun r => r.id == x)).take 1 := by
  intro l
  induction l with
  | nil =>
      intro seen
      by_cases hs : seen.contains x <;> simp [dedupByIdAux, hs]
  | cons r rs ih =>
      intro seen
      unfold dedupByIdAux
      by_cases hs : seen.contains r.id
      · rw [if_pos hs, ih seen]
        by_cases hx : seen.contains x
        · rw [if_pos hx, if_pos hx]
        · rw [if_neg hx, if_neg hx]
          have hne : (r.id == x) = false := by
            rw [beq_eq_false_iff_ne]
            intro he
            rw [he] at hs
            exact hx hs
          rw [List.filter_cons, hne]
          simp
      · rw [if_neg hs, List.filter_cons, List.filter_cons, ih (r.id :: seen)]
        by_cases hx : (r.id == x)
        · have hxe : x = r.id := (beq_iff_eq.mp hx).symm
          have h1 : (r.id :: seen).contains x = true := by
            subst hxe
            simp [List.contains_cons]
          have h2 : seen.contains x = false := by
            subst hxe
            exact Bool.eq_false_iff.mpr hs
          rw [hx, h1, h2]
          simp
        · have hxb : (r.id == x) = false := Bool.eq_false_iff.mpr hx
          have h1 : (r.id :: seen).contains x = seen.contains x := by
            have hne : x ≠ r.id := fun he => hx (by rw [he]; exact beq_self_eq_true _)
            simp [List.contains_cons, hne]
          rw [hxb, h1]
          by_cases hx2 : seen.contains x <;> simp [hx2]

theorem flatten_filter_nonempty (l : List (List Row)) :
    (l.filter (fun f => !f.isEmpty)).flatten = l.flatten := by
  induction l with
  | nil => rfl
  | cons f fs ih =>
      by_cases hf : f.isEmpty
      · have he : f = [] := List.isEmpty_iff.mp hf
        rw [List.filter_cons]
        rw [hf]
        simp only [Bool.not_true, Bool.false_eq_true, if_false]
        rw [ih, he]
        simp
      · rw [List.filter_cons]
        rw [Bool.eq_false_iff.mpr hf]
        simp only [Bool.not_false, if_true]
        rw [List.flatten_cons, List.flatten_cons, ih]

/-- C3: in the fan-out merge, the rows with a given canonical id that survive
are exactly the first occurrence of that id in the source-order concatenation
of the handler frames — so when several registered handlers return a row for
the same id, exactly one row survives, the one contributed by the
earliest-registered handler. -/
theorem merge_dedup_keeps_first (handlerFrames : List (List Row)) (x : String) :
    ((_collect_journal_frames handlerFrames).filter (fun r => r.id == x)
      = ((handlerFrames.flatten).filter (fun r => r.id == x)).take 1)
    ∧ ((handlerFrames.flatten).filter (fun r => r.id == x) ≠ [] →
       ((_collect_journal_frames handlerFrames).filter (fun r => r.id == x)).length = 1) := by
  have hmain : (_collect_journal_frames handlerFrames).filter (fun r => r.id == x)
      = ((handlerFrames.flatten).filter (fun r => r.id == x)).take 1 := by
    unfold _collect_journal_frames
    rw [dedupByIdAux_filter x, flatten_filter_nonempty]
    rfl
  refine ⟨hmain, fun hne => ?_⟩
  rw [hmain]
  cases hl : (handlerFrames.flatten).filter (fun r => r.id == x) with
  | nil => exact absurd hl hne
  | cons r rs => rfl

/-- Witness for C3's conditional conjunct: both example handlers return a row
with id `"A"`; the merged table keeps exactly one. -/
theorem merge_dedup_keeps_first_witness :
    ((([[rowA], [rowA, rowB]] : List (List Row)).flatten).filter
        (fun r => r.id == "A") ≠ [])
    ∧ ((_collect_journal_frames [[rowA], [rowA, rowB]]).filter
        (fun r => r.id == "A")).length = 1 := by
  refine ⟨by decide, (merge_dedup_keeps_first [[rowA], [rowA, rowB]] "A").2 (by decide)⟩

/-! ## C6: the empty quartile filter is vacuous -/

/-- C6: for any registered category handlers, `getCategoriesWithQuartile`
with an empty quartile collection returns exactly `getAllCategories()`. -/
theorem categories_with_quartile_vacuous (e : Engine) :
    getCategoriesWithQuartile e [] = getAllCategories e := by
  show (getAllCategories e).filter (fun _ => true) = getAllCategories e
  exact List.filter_true (getAllCategories e)

/-! ## C10: the empty title fragment is the identity filter -/

/-- C10: on engines backed by the in-memory journal store, an empty or absent
title fragment makes `getJournalsWithTitle` return the same journals as
`getAllJournals` (the rows pass through `by_title` unfiltered). -/
theorem journals_with_falsy_title_eq_all (e : Engine) (title_part : Option String)
    (h : title_part = none ∨ title_part = some "") :
    getJournalsWithTitle e title_part = getAllJournals e := by
  rcases h with rfl | rfl
  · rfl
  · rfl

/-- Witness for C10 at the §8.6 example engine. -/
theorem journals_with_falsy_title_eq_all_witness :
    getJournalsWithTitle exampleEngine (some "") = getAllJournals exampleEngine :=
  journals_with_falsy_title_eq_all exampleEngine (some "") (Or.inr rfl)

/-! ## C7: empty engines, empty merges and rejected handlers -/

def emptyEngine : Engine := { journalQuery := [], categoryQuery := [] }

/-- C7: an engine with no registered handlers returns an empty list (or
`none` for `getEntityById`) from every public query operation; a merge in
which no handler produced a row yields the empty table; and adding a null
or already-registered handler returns `false` and leaves the handler
collection unchanged. -/
theorem empty_engine_and_handler_registration_spec :
    (∀ ident, getEntityById emptyEngine ident = none)
    ∧ getAllJournals emptyEngine = []
    ∧ (∀ tp, getJournalsWithTitle emptyEngine tp = [])
    ∧ (∀ pp, getJournalsPublishedBy emptyEngine pp = [])
    ∧ (∀ ls, getJournalsWithLicense emptyEngine ls = [])
    ∧ getJournalsWithAPC emptyEngine = []
    ∧ getJournalsWithDOAJSeal emptyEngine = []
    ∧ getAllCategories emptyEngine = []
    ∧ getAllAreas emptyEngine = []
    ∧ (∀ qs, getCategoriesWithQuartile emptyEngine qs = [])
    ∧ (∀ xs, getCategoriesAssignedToAreas emptyEngine xs = [])
    ∧ (∀ cs, getAreasAssignedToCategories emptyEngine cs = [])
    ∧ (∀ cs qs, getJournalsInCategoriesWithQuartile emptyEngine cs qs = [])
    ∧ (∀ xs ls, getJournalsInAreasWithLicense emptyEngine xs ls = [])
    ∧ (∀ xs cs qs,
        getDiamondJournalsInAreasAndCategoriesWithQuartile emptyEngine xs cs qs = [])
    ∧ (∀ hf : List (List Row), (∀ f ∈ hf, f = []) → _collect_journal_frames hf = [])
    ∧ (∀ hs : List Nat,
        addJournalHandler hs none = (false, hs)
        ∧ addCategoryHandler hs none = (false, hs))
    ∧ (∀ hs : List Nat, ∀ h ∈ hs,
        addJournalHandler hs (some h) = (false, hs)
        ∧ addCategoryHandler hs (some h) = (false, hs)) := by
  refine ⟨fun _ => rfl, rfl, fun _ => rfl, fun _ => rfl, fun _ => rfl, rfl, rfl, rfl, rfl,
    fun _ => rfl, fun _ => rfl, fun _ => rfl, fun _ _ => rfl, fun _ _ => rfl,
    fun _ _ _ => rfl, ?_, fun hs => ⟨rfl, rfl⟩, ?_⟩
  · intro hf hall
    unfold _collect_journal_frames
    have hfe : hf.filter (fun f => !f.isEmpty) = [] := by
      rw [List.filter_eq_nil_iff]
      intro f hfmem
      rw [hall f hfmem]
      decide
    rw [hfe]
    rfl
  · intro hs h hmem
    have hc : hs.contains h = true := List.elem_iff.mpr hmem
    exact ⟨by simp [addJournalHandler, hc, hmem], by simp [addCategoryHandler, hc, hmem]⟩

/-- Witness for C7's conditional conjuncts: merging two empty frames gives
the empty table, and re-adding a registered handler is rejected without
change. -/
theorem empty_engine_and_handler_registration_spec_witness :
    _collect_journal_frames [[], []] = []
    ∧ addJournalHandler [5] (some 5) = (false, [5]) := by
  obtain ⟨-, -, -, -, -, -, -, -, -, -, -, -, -, -, -, hcollect, -, hdup⟩ :=
    empty_engine_and_handler_registration_spec
  refine ⟨hcollect [[], []] ?_, (hdup [5] 5 (by simp)).1⟩
  intro f hf
  rcases List.mem_cons.mp hf with rfl | hf2
  · rfl
  · rcases List.mem_cons.mp hf2 with rfl | hf3
    · rfl
    · exact absurd hf3 (List.not_mem_nil _)

/-! ## C8: journals without any alias match are kept, with empty links -/

theorem hydrate_fold_no_match (cm : List (String × Category)) (am : List (String × Area))
    (aliasMap : List (String × String))
    (jc : List (String × List (String × List String)))
    (ja : List (String × List String)) :
    ∀ (l : List String) (j : Journal),
    (∀ i ∈ l, resolveAlias aliasMap i = none) →
    l.foldl (hydrateStep cm am aliasMap jc ja) j = j := by
  intro l
  induction l with
  | nil => intro j _; rfl
  | cons i is ih =>
      intro j hl
      rw [List.foldl_cons]
      have hstep : hydrateStep cm am aliasMap jc ja j i = j := by
        unfold hydrateStep
        rw [hl i (List.mem_cons_self i is)]
      rw [hstep]
      exact ih j (fun i' hi' => hl i' (List.mem_cons_of_mem i hi'))

/-- C8: a merged row none of whose identifiers resolves through the merged
alias map is still hydrated into the result — as the untouched constructed
journal — with empty category and area lists. -/
theorem unmatched_journal_still_returned (exps : List Export) (frame : List Row) (r : Row)
    (hr : r ∈ frame)
    (hnone : ∀ i ∈ r.identifiers,
      resolveAlias (_collect_category_exports exps).journal_alias i = none) :
    mkJournal r ∈ _build_journal_objects exps frame
    ∧ (mkJournal r).categories = [] ∧ (mkJournal r).areas = [] := by
  have hhyd : hydrateRow (_build_taxonomy exps).1 (_build_taxonomy exps).2.1
      ((_build_taxonomy exps).2.2).journal_alias
      ((_build_taxonomy exps).2.2).journal_categories
      ((_build_taxonomy exps).2.2).journal_areas r = mkJournal r := by
    unfold hydrateRow
    apply hydrate_fold_no_match
    intro i hi
    exact hnone i (List.mem_of_mem_filter hi)
  refine ⟨?_, rfl, rfl⟩
  have hobj : _build_journal_objects exps frame
      = frame.map (hydrateRow (_build_taxonomy exps).1 (_build_taxonomy exps).2.1
          ((_build_taxonomy exps).2.2).journal_alias
          ((_build_taxonomy exps).2.2).journal_categories
          ((_build_taxonomy exps).2.2).journal_areas) := rfl
  rw [hobj]
  exact hhyd ▸ List.mem_map_of_mem _ hr

/-- Witness for C8: a row whose identifiers `"i1"`, `"i2"` have no alias in
the §8.6 taxonomy is still returned, link-free. -/
theorem unmatched_journal_still_returned_witness :
    mkJournal cexRowTwoIds ∈ _build_journal_objects [exampleExport] [cexRowTwoIds]
    ∧ (mkJournal cexRowTwoIds).categories = [] ∧ (mkJournal cexRowTwoIds).areas = [] :=
  unmatched_journal_still_returned [exampleExport] [cexRowTwoIds] cexRowTwoIds
    (by decide) (by decide)

/-! ## C9: taxonomy nodes carry their identifier as display name -/

theorem addQuartile_fields (c : Category) (q : Option String) :
    (c.addQuartile q).name = c.name ∧ (c.addQuartile q).id = c.id := by
  unfold Category.addQuartile
  cases q with
  | none => exact ⟨rfl, rfl⟩
  | some qv =>
      dsimp only
      split
      · split
        · exact ⟨rfl, rfl⟩
        · exact ⟨rfl, rfl⟩
      · exact ⟨rfl, rfl⟩

theorem addArea_fields (c : Category) (a : Area) :
    ((Category.addArea c a).1.name = c.name ∧ (Category.addArea c a).1.id = c.id)
    ∧ ((Category.addArea c a).2.name = a.name ∧ (Category.addArea c a).2.id = a.id) := by
  unfold Category.addArea
  split
  · dsimp only
    refine ⟨⟨?_, ?_⟩, ⟨?_, ?_⟩⟩ <;> first | rfl | (split <;> rfl)
  · exact ⟨⟨rfl, rfl⟩, ⟨rfl, rfl⟩⟩

theorem quartFold_fields (qs : List String) : ∀ c : Category,
    ((qs.foldl (fun c q => c.addQuartile (some q)) c).name = c.name)
    ∧ ((qs.foldl (fun c q => c.addQuartile (some q)) c).id = c.id) := by
  induction qs with
  | nil => intro c; exact ⟨rfl, rfl⟩
  | cons q qs ih =>
      intro c
      rw [List.foldl_cons]
      obtain ⟨h1, h2⟩ := ih (c.addQuartile (some q))
      obtain ⟨g1, g2⟩ := addQuartile_fields c (some q)
      exact ⟨h1.trans g1, h2.trans g2⟩

theorem mem_aMap {α : Type} {m : List (String × α)} {k : String} {g : α → α}
    {q : String × α} (h : q ∈ aMap m k g) :
    q ∈ m ∨ ∃ p ∈ m, q = (p.1, g p.2) := by
  unfold aMap at h
  obtain ⟨p, hp, he⟩ := List.mem_map.mp h
  by_cases hk : (p.1 == k)
  · right
    refine ⟨p, hp, ?_⟩
    rw [← he, if_pos hk]
  · left
    rw [← he, if_neg hk]
    exact hp

theorem mem_aSet {α : Type} {m : List (String × α)} {k : String} {v : α}
    {q : String × α} (h : q ∈ aSet m k v) : q ∈ m ∨ q.2 = v := by
  unfold aSet at h
  split at h
  · rcases mem_aMap h with h | ⟨p, hp, he⟩
    · exact Or.inl h
    · right
      rw [he]
  · rcases List.mem_append.mp h with h | h
    · exact Or.inl h
    · right
      rw [List.mem_singleton.mp h]

theorem aGet_mem {α : Type} {m : List (String × α)} {k : String} {v : α}
    (h : aGet m k = some v) : ∃ p ∈ m, p.2 = v := by
  unfold aGet at h
  cases hf : m.find? (fun p => p.1 == k) with
  | none => rw [hf] at h; cases h
  | some p =>
      rw [hf] at h
      exact ⟨p, List.mem_of_find?_eq_some hf, Option.some.inj h⟩

/-- Generic preservation of a value predicate by an association-list fold. -/
theorem foldl_alist_inv {α β : Type} (P : α → Prop)
    (f : List (String × α) → β → List (String × α))
    (hstep : ∀ m b, (∀ p ∈ m, P p.2) → ∀ p ∈ f m b, P p.2) :
    ∀ (l : List β) (m : List (String × α)), (∀ p ∈ m, P p.2) →
    ∀ p ∈ l.foldl f m, P p.2 := by
  intro l
  induction l with
  | nil => intro m hm; exact hm
  | cons b bs ih => intro m hm; exact ih (f m b) (hstep m b hm)

theorem extend_cat_inv {m : List (String × Category)} {k : String}
    (hm : ∀ p ∈ m, p.2.name = p.2.id) :
    ∀ p ∈ (if aHas m k then m else m ++ [(k, mkCategory (some k))]), p.2.name = p.2.id := by
  intro p hp
  split at hp
  · exact hm p hp
  · rcases List.mem_append.mp hp with hp | hp
    · exact hm p hp
    · rw [List.mem_singleton.mp hp]
      rfl

theorem extend_area_inv {m : List (String × Area)} {k : String}
    (hm : ∀ p ∈ m, p.2.name = p.2.id) :
    ∀ p ∈ (if aHas m k then m else m ++ [(k, mkArea (some k))]), p.2.name = p.2.id := by
  intro p hp
  split at hp
  · exact hm p hp
  · rcases List.mem_append.mp hp with hp | hp
    · exact hm p hp
    · rw [List.mem_singleton.mp hp]
      rfl

theorem catMapStep_inv (m : List (String × Category)) (p : String × CatData)
    (hm : ∀ q ∈ m, q.2.name = q.2.id) :
    ∀ q ∈ catMapStep m p, q.2.name = q.2.id := by
  intro q hq
  unfold catMapStep at hq
  rcases mem_aMap hq with hq | ⟨p', hp', he⟩
  · exact extend_cat_inv hm q hq
  · have hbase : p'.2.name = p'.2.id := extend_cat_inv hm p' hp'
    rw [he]
    obtain ⟨f1, f2⟩ := quartFold_fields p.2.quartiles p'.2
    show (p.2.quartiles.foldl (fun c q => c.addQuartile (some q)) p'.2).name = _
    rw [f1, f2, hbase]

theorem linkStep_inv (aid : String)
    (st2 : List (String × Category) × List (String × Area)) (cid : String)
    (h1 : ∀ q ∈ st2.1, q.2.name = q.2.id) (h2 : ∀ q ∈ st2.2, q.2.name = q.2.id) :
    (∀ q ∈ (linkStep aid st2 cid).1, q.2.name = q.2.id)
    ∧ (∀ q ∈ (linkStep aid st2 cid).2, q.2.name = q.2.id) := by
  unfold linkStep
  dsimp only
  have hcm' : ∀ q ∈ (if aHas st2.1 cid then st2.1 else st2.1 ++ [(cid, mkCategory (some cid))]),
      q.2.name = q.2.id := extend_cat_inv h1
  have hc : ((aGet (if aHas st2.1 cid then st2.1 else st2.1 ++ [(cid, mkCategory (some cid))])
      cid).getD (mkCategory (some cid))).name
      = ((aGet (if aHas st2.1 cid then st2.1 else st2.1 ++ [(cid, mkCategory (some cid))])
      cid).getD (mkCategory (some cid))).id := by
    cases hg : aGet (if aHas st2.1 cid then st2.1 else st2.1 ++ [(cid, mkCategory (some cid))]) cid with
    | none => rfl
    | some v =>
        obtain ⟨p, hp, hv⟩ := aGet_mem hg
        rw [Option.getD_some, ← hv]
        exact hcm' p hp
  have ha : ((aGet st2.2 aid).getD (mkArea (some aid))).name
      = ((aGet st2.2 aid).getD (mkArea (some aid))).id := by
    cases hg : aGet st2.2 aid with
    | none => rfl
    | some v =>
        obtain ⟨p, hp, hv⟩ := aGet_mem hg
        rw [Option.getD_some, ← hv]
        exact h2 p hp
  constructor
  · intro q hq
    rcases mem_aSet hq with hq | hq
    · exact hcm' q hq
    · rw [hq]
      obtain ⟨⟨f1, f2⟩, -⟩ := addArea_fields _ _
      rw [f1, f2, hc]
  · intro q hq
    rcases mem_aSet hq with hq | hq
    · exact h2 q hq
    · rw [hq]
      obtain ⟨-, ⟨f1, f2⟩⟩ := addArea_fields _ _
      rw [f1, f2, ha]

theorem linkFold_inv (aid : String) (cids : List String) :
    ∀ (st2 : List (String × Category) × List (String × Area)),
    (∀ q ∈ st2.1, q.2.name = q.2.id) → (∀ q ∈ st2.2, q.2.name = q.2.id) →
    (∀ q ∈ (cids.foldl (linkStep aid) st2).1, q.2.name = q.2.id)
    ∧ (∀ q ∈ (cids.foldl (linkStep aid) st2).2, q.2.name = q.2.id) := by
  induction cids with
  | nil => intro st2 h1 h2; exact ⟨h1, h2⟩
  | cons c cs ih =>
      intro st2 h1 h2
      rw [List.foldl_cons]
      obtain ⟨g1, g2⟩ := linkStep_inv aid st2 c h1 h2
      exact ih (linkStep aid st2 c) g1 g2

theorem buildAreaStep_inv (st : List (String × Category) × List (String × Area))
    (p : String × List String)
    (h1 : ∀ q ∈ st.1, q.2.name = q.2.id) (h2 : ∀ q ∈ st.2, q.2.name = q.2.id) :
    (∀ q ∈ (buildAreaStep st p).1, q.2.name = q.2.id)
    ∧ (∀ q ∈ (buildAreaStep st p).2, q.2.name = q.2.id) := by
  unfold buildAreaStep
  exact linkFold_inv p.1 p.2 (st.1, if aHas st.2 p.1 then st.2 else st.2 ++ [(p.1, mkArea (some p.1))])
    h1 (extend_area_inv h2)

theorem areaFold_inv (entries : List (String × List String)) :
    ∀ (st : List (String × Category) × List (String × Area)),
    (∀ q ∈ st.1, q.2.name = q.2.id) → (∀ q ∈ st.2, q.2.name = q.2.id) →
    (∀ q ∈ (entries.foldl buildAreaStep st).1, q.2.name = q.2.id)
    ∧ (∀ q ∈ (entries.foldl buildAreaStep st).2, q.2.name = q.2.id) := by
  induction entries with
  | nil => intro st h1 h2; exact ⟨h1, h2⟩
  | cons e es ih =>
      intro st h1 h2
      rw [List.foldl_cons]
      obtain ⟨g1, g2⟩ := buildAreaStep_inv st e h1 h2
      exact ih (buildAreaStep st e) g1 g2

/-- C9: every Category/Area constructed from an identifier has display name
equal to its (trimmed) identifier, and so does every taxonomy node
materialised by the engine. -/
theorem taxonomy_nodes_name_eq_id :
    (∀ s : Option String, (mkCategory s).name = (mkCategory s).id
        ∧ (mkCategory s).id = pyStrip (s.getD ""))
    ∧ (∀ s : Option String, (mkArea s).name = (mkArea s).id
        ∧ (mkArea s).id = pyStrip (s.getD ""))
    ∧ (∀ (e : Engine), ∀ c ∈ getAllCategories e, c.name = c.id)
    ∧ (∀ (e : Engine), ∀ a ∈ getAllAreas e, a.name = a.id) := by
  have hcm : ∀ (exps : List Export), ∀ q ∈ (_build_taxonomy exps).1, q.2.name = q.2.id := by
    intro exps
    have hbase : ∀ q ∈ buildCategoryMap (_collect_category_exports exps).categories,
        q.2.name = q.2.id := by
      unfold buildCategoryMap
      exact foldl_alist_inv (fun c => c.name = c.id) catMapStep catMapStep_inv _ []
        (fun p hp => absurd hp (List.not_mem_nil _))
    exact (areaFold_inv (_collect_category_exports exps).areas
      (buildCategoryMap (_collect_category_exports exps).categories, [])
      hbase (fun p hp => absurd hp (List.not_mem_nil _))).1
  have ham : ∀ (exps : List Export), ∀ q ∈ (_build_taxonomy exps).2.1, q.2.name = q.2.id := by
    intro exps
    have hbase : ∀ q ∈ buildCategoryMap (_collect_category_exports exps).categories,
        q.2.name = q.2.id := by
      unfold buildCategoryMap
      exact foldl_alist_inv (fun c => c.name = c.id) catMapStep catMapStep_inv _ []
        (fun p hp => absurd hp (List.not_mem_nil _))
    exact (areaFold_inv (_collect_category_exports exps).areas
      (buildCategoryMap (_collect_category_exports exps).categories, [])
      hbase (fun p hp => absurd hp (List.not_mem_nil _))).2
  refine ⟨fun s => ⟨rfl, rfl⟩, fun s => ⟨rfl, rfl⟩, ?_, ?_⟩
  · intro e c hc
    obtain ⟨p, hp, he⟩ := List.mem_map.mp hc
    rw [← he]
    exact hcm e.categoryQuery p hp
  · intro e a ha
    obtain ⟨p, hp, he⟩ := List.mem_map.mp ha
    rw [← he]
    exact ham e.categoryQuery p hp

/-- Witness for C9's membership-conditioned conjuncts at the §8.6 example. -/
theorem taxonomy_nodes_name_eq_id_witness :
    (∃ c ∈ getAllCategories exampleEngine, c.name = c.id)
    ∧ (∃ a ∈ getAllAreas exampleEngine, a.name = a.id) := by
  obtain ⟨-, -, hc, ha⟩ := taxonomy_nodes_name_eq_id
  refine ⟨⟨mkCategory (some "C1") |>.addQuartile (some "Q1") |>.addArea (mkArea (some "bio")) |>.1, ?_, ?_⟩, ?_⟩
  · decide
  · decide
  · refine ⟨(Category.addArea (Category.addQuartile (mkCategory (some "C1")) (some "Q1")) (mkArea (some "bio"))).2, by decide, ?_⟩
    exact ha exampleEngine _ (by decide)

/-! ## C1: every resolving identifier contributes its taxonomy links -/

theorem addCategory_mono (j : Journal) (c : Category) {x : String}
    (h : ∃ d ∈ j.categories, d.id = x) :
    ∃ d ∈ (j.addCategory c).categories, d.id = x := by
  unfold Journal.addCategory
  split
  · dsimp only
    split
    · exact h
    · obtain ⟨d, hd, he⟩ := h
      exact ⟨d, List.mem_append.mpr (Or.inl hd), he⟩
  · exact h

theorem addArea_mono (j : Journal) (a : Area) {x : String}
    (h : ∃ d ∈ j.areas, d.id = x) :
    ∃ d ∈ (j.addArea a).areas, d.id = x := by
  unfold Journal.addArea
  split
  · dsimp only
    split
    · exact h
    · obtain ⟨d, hd, he⟩ := h
      exact ⟨d, List.mem_append.mpr (Or.inl hd), he⟩
  · exact h

theorem addCategory_areas (j : Journal) (c : Category) :
    (j.addCategory c).areas = j.areas := by
  unfold Journal.addCategory
  split <;> rfl

theorem addArea_categories (j : Journal) (a : Area) :
    (j.addArea a).categories = j.categories := by
  unfold Journal.addArea
  split <;> rfl

theorem attachCategoriesStep_areas (cm : List (String × Category)) (j : Journal)
    (cq : String × List String) :
    (attachCategoriesStep cm j cq).areas = j.areas := by
  unfold attachCategoriesStep
  split
  · exact addCategory_areas _ _
  · rfl

theorem attachAreasStep_categories (am : List (String × Area)) (j : Journal)
    (aid : String) :
    (attachAreasStep am j aid).categories = j.categories := by
  unfold attachAreasStep
  split
  · exact addArea_categories _ _
  · rfl

theorem attachCategoriesStep_mono (cm : List (String × Category)) (j : Journal)
    (cq : String × List String) {x : String} (h : ∃ d ∈ j.categories, d.id = x) :
    ∃ d ∈ (attachCategoriesStep cm j cq).categories, d.id = x := by
  unfold attachCategoriesStep
  split
  · exact addCategory_mono _ _ h
  · exact h

theorem attachAreasStep_mono (am : List (String × Area)) (j : Journal)
    (aid : String) {x : String} (h : ∃ d ∈ j.areas, d.id = x) :
    ∃ d ∈ (attachAreasStep am j aid).areas, d.id = x := by
  unfold attachAreasStep
  split
  · exact addArea_mono _ _ h
  · exact h

theorem catFold_mono (cm : List (String × Category))
    (entries : List (String × List String)) :
    ∀ (j : Journal) {x : String}, (∃ d ∈ j.categories, d.id = x) →
    ∃ d ∈ (entries.foldl (attachCategoriesStep cm) j).categories, d.id = x := by
  induction entries with
  | nil => intro j x h; exact h
  | cons e es ih =>
      intro j x h
      rw [List.foldl_cons]
      exact ih _ (attachCategoriesStep_mono cm j e h)

theorem areaFold_mono (am : List (String × Area)) (entries : List String) :
    ∀ (j : Journal) {x : String}, (∃ d ∈ j.areas, d.id = x) →
    ∃ d ∈ (entries.foldl (attachAreasStep am) j).areas, d.id = x := by
  induction entries with
  | nil => intro j x h; exact h
  | cons e es ih =>
      intro j x h
      rw [List.foldl_cons]
      exact ih _ (attachAreasStep_mono am j e h)

theorem catFold_areas (cm : List (String × Category))
    (entries : List (String × List String)) :
    ∀ (j : Journal), (entries.foldl (attachCategoriesStep cm) j).areas = j.areas := by
  induction entries with
  | nil => intro j; rfl
  | cons e es ih =>
      intro j
      rw [List.foldl_cons, ih, attachCategoriesStep_areas]

theorem areaFold_categories (am : List (String × Area)) (entries : List String) :
    ∀ (j : Journal),
    (entries.foldl (attachAreasStep am) j).categories = j.categories := by
  induction entries with
  | nil => intro j; rfl
  | cons e es ih =>
      intro j
      rw [List.foldl_cons, ih, attachAreasStep_categories]

theorem addCategory_attach (j : Journal) (c : Category) (h : c.id ≠ "") :
    ∃ d ∈ (j.addCategory c).categories, d.id = c.id := by
  unfold Journal.addCategory
  rw [if_pos h]
  dsimp only
  split
  · next hany =>
      obtain ⟨d, hd, he⟩ := List.any_eq_true.mp hany
      exact ⟨d, hd, beq_iff_eq.mp he⟩
  · exact ⟨c, List.mem_append.mpr (Or.inr (List.mem_singleton.mpr rfl)), rfl⟩

theorem addArea_attach (j : Journal) (a : Area) (h : a.id ≠ "") :
    ∃ d ∈ (j.addArea a).areas, d.id = a.id := by
  unfold Journal.addArea
  rw [if_pos h]
  dsimp only
  split
  · next hany =>
      obtain ⟨d, hd, he⟩ := List.any_eq_true.mp hany
      exact ⟨d, hd, beq_iff_eq.mp he⟩
  · exact ⟨a, List.mem_append.mpr (Or.inr (List.mem_singleton.mpr rfl)), rfl⟩

theorem catFold_attach (cm : List (String × Category))
    (entries : List (String × List String)) :
    ∀ (j : Journal) (cq : String × List String), cq ∈ entries →
    ∀ (category : Category), aGet cm cq.1 = some category → category.id ≠ "" →
    ∃ d ∈ (entries.foldl (attachCategoriesStep cm) j).categories, d.id = category.id := by
  induction entries with
  | nil => intro j cq hcq; exact absurd hcq (List.not_mem_nil _)
  | cons e es ih =>
      intro j cq hcq category hget hne
      rw [List.foldl_cons]
      rcases List.mem_cons.mp hcq with rfl | hcq'
      · apply catFold_mono
        have hstep : attachCategoriesStep cm j cq = j.addCategory category := by
          unfold attachCategoriesStep
          rw [hget]
        rw [hstep]
        exact addCategory_attach j category hne
      · exact ih _ cq hcq' category hget hne

theorem areaFold_attach (am : List (String × Area)) (entries : List String) :
    ∀ (j : Journal) (aid : String), aid ∈ entries →
    ∀ (area : Area), aGet am aid = some area → area.id ≠ "" →
    ∃ d ∈ (entries.foldl (attachAreasStep am) j).areas, d.id = area.id := by
  induction entries with
  | nil => intro j aid haid; exact absurd haid (List.not_mem_nil _)
  | cons e es ih =>
      intro j aid haid area hget hne
      rw [List.foldl_cons]
      rcases List.mem_cons.mp haid with rfl | haid'
      · apply areaFold_mono
        have hstep : attachAreasStep am j aid = j.addArea area := by
          unfold attachAreasStep
          rw [hget]
        rw [hstep]
        exact addArea_attach j area hne
      · exact ih _ aid haid' area hget hne

theorem hydrateStep_mono_cat (cm : List (String × Category)) (am : List (String × Area))
    (aliasMap : List (String × String))
    (jc : List (String × List (String × List String)))
    (ja : List (String × List String)) (j : Journal) (ident : String) {x : String}
    (h : ∃ d ∈ j.categories, d.id = x) :
    ∃ d ∈ (hydrateStep cm am aliasMap jc ja j ident).categories, d.id = x := by
  unfold hydrateStep
  cases resolveAlias aliasMap ident with
  | none => exact h
  | some canonical =>
      dsimp only
      rw [areaFold_categories]
      exact catFold_mono cm _ j h

theorem hydrateStep_mono_area (cm : List (String × Category)) (am : List (String × Area))
    (aliasMap : List (String × String))
    (jc : List (String × List (String × List String)))
    (ja : List (String × List String)) (j : Journal) (ident : String) {x : String}
    (h : ∃ d ∈ j.areas, d.id = x) :
    ∃ d ∈ (hydrateStep cm am aliasMap jc ja j ident).areas, d.id = x := by
  unfold hydrateStep
  cases resolveAlias aliasMap ident with
  | none => exact h
  | some canonical =>
      dsimp only
      apply areaFold_mono
      rw [catFold_areas]
      exact h

theorem hydrateFold_mono_cat (cm : List (String × Category)) (am : List (String × Area))
    (aliasMap : List (String × String))
    (jc : List (String × List (String × List String)))
    (ja : List (String × List String)) (l : List String) :
    ∀ (j : Journal) {x : String}, (∃ d ∈ j.categories, d.id = x) →
    ∃ d ∈ (l.foldl (hydrateStep cm am aliasMap jc ja) j).categories, d.id = x := by
  induction l with
  | nil => intro j x h; exact h
  | cons i is ih =>
      intro j x h
      rw [List.foldl_cons]
      exact ih _ (hydrateStep_mono_cat cm am aliasMap jc ja j i h)

theorem hydrateFold_mono_area (cm : List (String × Category)) (am : List (String × Area))
    (aliasMap : List (String × String))
    (jc : List (String × List (String × List String)))
    (ja : List (String × List String)) (l : List String) :
    ∀ (j : Journal) {x : String}, (∃ d ∈ j.areas, d.id = x) →
    ∃ d ∈ (l.foldl (hydrateStep cm am aliasMap jc ja) j).areas, d.id = x := by
  induction l with
  | nil => intro j x h; exact h
  | cons i is ih =>
      intro j x h
      rw [List.foldl_cons]
      exact ih _ (hydrateStep_mono_area cm am aliasMap jc ja j i h)

theorem hydrateStep_attach_cat (cm : List (String × Category)) (am : List (String × Area))
    (aliasMap : List (String × String))
    (jc : List (String × List (String × List String)))
    (ja : List (String × List String)) (j : Journal) (ident canonical : String)
    (hres : resolveAlias aliasMap ident = some canonical)
    (cq : String × List String) (hcq : cq ∈ (aGet jc canonical).getD [])
    (category : Category) (hget : aGet cm cq.1 = some category) (hne : category.id ≠ "") :
    ∃ d ∈ (hydrateStep cm am aliasMap jc ja j ident).categories, d.id = category.id := by
  unfold hydrateStep
  rw [hres]
  dsimp only
  rw [areaFold_categories]
  exact catFold_attach cm _ j cq hcq category hget hne

theorem hydrateStep_attach_area (cm : List (String × Category)) (am : List (String × Area))
    (aliasMap : List (String × String))
    (jc : List (String × List (String × List String)))
    (ja : List (String × List String)) (j : Journal) (ident canonical : String)
    (hres : resolveAlias aliasMap ident = some canonical)
    (aid : String) (haid : aid ∈ (aGet ja canonical).getD [])
    (area : Area) (hget : aGet am aid = some area) (hne : area.id ≠ "") :
    ∃ d ∈ (hydrateStep cm am aliasMap jc ja j ident).areas, d.id = area.id := by
  unfold hydrateStep
  rw [hres]
  dsimp only
  exact areaFold_attach am _ _ aid haid area hget hne

/-- C1 amended: the hydration loop of `_build_journal_objects` tries the
row's identifiers in order but, having no early exit, attaches the taxonomy
links of *every* identifier that resolves (each attachment deduplicated by
entity id); for the categories and areas of any resolving identifier's
canonical id, a matching entity is present in the hydrated journal. -/
theorem hydration_every_match_contributes (cm : List (String × Category))
    (am : List (String × Area)) (aliasMap : List (String × String))
    (jc : List (String × List (String × List String)))
    (ja : List (String × List String)) (r : Row) (ident canonical : String)
    (hmem : ident ∈ r.identifiers) (hne : ident ≠ "")
    (hres : resolveAlias aliasMap ident = some canonical) :
    (∀ cq ∈ (aGet jc canonical).getD [], ∀ category : Category,
        aGet cm cq.1 = some category → category.id ≠ "" →
        ∃ d ∈ (hydrateRow cm am aliasMap jc ja r).categories, d.id = category.id)
    ∧ (∀ aid ∈ (aGet ja canonical).getD [], ∀ area : Area,
        aGet am aid = some area → area.id ≠ "" →
        ∃ d ∈ (hydrateRow cm am aliasMap jc ja r).areas, d.id = area.id) := by
  have hmem' : ident ∈ r.identifiers.filter (fun i => i != "") :=
    List.mem_filter.mpr ⟨hmem, by simp [hne]⟩
  have hfold : ∀ (l : List String) (j : Journal), ident ∈ l →
      (∀ cq ∈ (aGet jc canonical).getD [], ∀ category : Category,
          aGet cm cq.1 = some category → category.id ≠ "" →
          ∃ d ∈ (l.foldl (hydrateStep cm am aliasMap jc ja) j).categories,
            d.id = category.id)
      ∧ (∀ aid ∈ (aGet ja canonical).getD [], ∀ area : Area,
          aGet am aid = some area → area.id ≠ "" →
          ∃ d ∈ (l.foldl (hydrateStep cm am aliasMap jc ja) j).areas,
            d.id = area.id) := by
    intro l
    induction l with
    | nil => intro j h; exact absurd h (List.not_mem_nil _)
    | cons i is ih =>
        intro j hm
        rw [List.foldl_cons]
        rcases List.mem_cons.mp hm with rfl | hm'
        · constructor
          · intro cq hcq category hget hcne
            exact hydrateFold_mono_cat cm am aliasMap jc ja is _
              (hydrateStep_attach_cat cm am aliasMap jc ja j ident canonical hres
                cq hcq category hget hcne)
          · intro aid haid area hget hane
            exact hydrateFold_mono_area cm am aliasMap jc ja is _
              (hydrateStep_attach_area cm am aliasMap jc ja j ident canonical hres
                aid haid area hget hane)
        · exact ih (hydrateStep cm am aliasMap jc ja j i) hm'
  exact hfold (r.identifiers.filter (fun i => i != "")) (mkJournal r) hmem'

/-- C1 counterexample: with alias map `{i1→J1, i2→J2}`, canonical id `J1`
linked to category `C1` and `J2` to category `C2`, hydrating a row whose
identifiers are `[i1, i2]` attaches BOTH `C1` and `C2`: the loop has no
early exit after the first successful match, so the second identifier —
aliasing to a *different* canonical taxonomy id — also contributes its
categories, contrary to the claimed first-match-wins behaviour. -/
theorem hydration_first_match_only_cex :
    ((hydrateRow cexCatMap [] [("i1", "J1"), ("i2", "J2")]
        [("J1", [("C1", [])]), ("J2", [("C2", [])])] [] cexRowTwoIds).categories.map
      (fun c => c.id)) = ["C1", "C2"] := by decide

/-- Witness for the amended C1 theorem: the second identifier's category
`C2` is attached even though the first identifier already resolved. -/
theorem hydration_every_match_contributes_witness :
    ∃ d ∈ (hydrateRow cexCatMap [] [("i1", "J1"), ("i2", "J2")]
        [("J1", [("C1", [])]), ("J2", [("C2", [])])] [] cexRowTwoIds).categories,
      d.id = ({ id := "C2", name := "C2", quartiles := [], areas := [] } : Category).id :=
  (hydration_every_match_contributes cexCatMap [] [("i1", "J1"), ("i2", "J2")]
      [("J1", [("C1", [])]), ("J2", [("C2", [])])] [] cexRowTwoIds "i2" "J2"
      (by decide) (by decide) (by decide)).1
    ("C2", []) (by decide)
    { id := "C2", name := "C2", quartiles := [], areas := [] } (by decide) (by decide)

/-! ## C4: the diamond query -/

theorem mem_dedup_foldl (x : String) :
    ∀ (l acc : List String),
    (x ∈ l.foldl (fun acc y => if acc.contains y then acc else acc ++ [y]) acc)
      ↔ (x ∈ acc ∨ x ∈ l) := by
  intro l
  induction l with
  | nil => intro acc; simp
  | cons y ys ih =>
      intro acc
      rw [List.foldl_cons]
      by_cases hy : acc.contains y
      · rw [if_pos hy, ih]
        constructor
        · rintro (h | h)
          · exact Or.inl h
          · exact Or.inr (List.mem_cons_of_mem _ h)
        · rintro (h | h)
          · exact Or.inl h
          · rcases List.mem_cons.mp h with rfl | h
            · exact Or.inl (List.elem_iff.mp hy)
            · exact Or.inr h
      · rw [if_neg hy, ih]
        constructor
        · rintro (h | h)
          · rcases List.mem_append.mp h with h | h
            · exact Or.inl h
            · exact Or.inr (List.mem_cons.mpr (Or.inl (List.mem_singleton.mp h)))
          · exact Or.inr (List.mem_cons_of_mem _ h)
        · rintro (h | h)
          · exact Or.inl (List.mem_append.mpr (Or.inl h))
          · rcases List.mem_cons.mp h with rfl | h
            · exact Or.inl (List.mem_append.mpr (Or.inr (List.mem_singleton.mpr rfl)))
            · exact Or.inr h

theorem mem_dedupStr {l : List String} {x : String} : x ∈ dedupStr l ↔ x ∈ l := by
  unfold dedupStr
  rw [mem_dedup_foldl]
  simp

theorem interB_iff {a b : List String} : interB a b = true ↔ ∃ x ∈ a, x ∈ b := by
  unfold interB
  rw [List.any_eq_true]
  constructor
  · rintro ⟨x, hx, hb⟩
    exact ⟨x, hx, List.elem_iff.mp hb⟩
  · rintro ⟨x, hx, hb⟩
    exact ⟨x, hx, List.elem_iff.mpr hb⟩

theorem diamondPredB_iff (ra rc rq : List String) (j : Journal) :
    ((ra.isEmpty
      || interB (dedupStr (j.areas.map (fun a => _norm a.id))) ra)
     && j.categories.any (fun category =>
         (rc.isEmpty || rc.contains (_norm category.id))
         && (rq.isEmpty || interB (dedupStr (category.quartiles.map _norm)) rq))) = true
    ↔ ((ra = [] ∨ ∃ a ∈ j.areas, _norm a.id ∈ ra)
       ∧ ∃ c ∈ j.categories, (rc = [] ∨ _norm c.id ∈ rc)
          ∧ (rq = [] ∨ ∃ q ∈ c.quartiles, _norm q ∈ rq)) := by
  have harea : (interB (dedupStr (j.areas.map (fun a => _norm a.id))) ra = true)
      ↔ ∃ a ∈ j.areas, _norm a.id ∈ ra := by
    rw [interB_iff]
    constructor
    · rintro ⟨x, hx, hxr⟩
      obtain ⟨a, ha, rfl⟩ := List.mem_map.mp (mem_dedupStr.mp hx)
      exact ⟨a, ha, hxr⟩
    · rintro ⟨a, ha, har⟩
      exact ⟨_norm a.id, mem_dedupStr.mpr (List.mem_map_of_mem _ ha), har⟩
  have hquart : ∀ c : Category, (interB (dedupStr (c.quartiles.map _norm)) rq = true)
      ↔ ∃ q ∈ c.quartiles, _norm q ∈ rq := by
    intro c
    rw [interB_iff]
    constructor
    · rintro ⟨x, hx, hxr⟩
      obtain ⟨q, hq, rfl⟩ := List.mem_map.mp (mem_dedupStr.mp hx)
      exact ⟨q, hq, hxr⟩
    · rintro ⟨q, hq, hqr⟩
      exact ⟨_norm q, mem_dedupStr.mpr (List.mem_map_of_mem _ hq), hqr⟩
  constructor
  · intro h
    rw [Bool.and_eq_true] at h
    obtain ⟨h1, h2⟩ := h
    rw [Bool.or_eq_true] at h1
    refine ⟨?_, ?_⟩
    · rcases h1 with h | h
      · exact Or.inl (List.isEmpty_iff.mp h)
      · exact Or.inr (harea.mp h)
    · obtain ⟨c, hc, hcp⟩ := List.any_eq_true.mp h2
      rw [Bool.and_eq_true, Bool.or_eq_true, Bool.or_eq_true] at hcp
      obtain ⟨hc1, hc2⟩ := hcp
      refine ⟨c, hc, ?_, ?_⟩
      · rcases hc1 with h | h
        · exact Or.inl (List.isEmpty_iff.mp h)
        · exact Or.inr (List.elem_iff.mp h)
      · rcases hc2 with h | h
        · exact Or.inl (List.isEmpty_iff.mp h)
        · exact Or.inr ((hquart c).mp h)
  · rintro ⟨h1, c, hc, hc1, hc2⟩
    rw [Bool.and_eq_true, Bool.or_eq_true]
    refine ⟨?_, ?_⟩
    · rcases h1 with rfl | h
      · exact Or.inl rfl
      · exact Or.inr (harea.mpr h)
    · refine List.any_eq_true.mpr ⟨c, hc, ?_⟩
      rw [Bool.and_eq_true, Bool.or_eq_true, Bool.or_eq_true]
      refine ⟨?_, ?_⟩
      · rcases hc1 with rfl | h
        · exact Or.inl rfl
        · exact Or.inr (List.elem_iff.mpr h)
      · rcases hc2 with rfl | h
        · exact Or.inl rfl
        · exact Or.inr ((hquart c).mpr h)

/-- C4: `getDiamondJournalsInAreasAndCategoriesWithQuartile` returns exactly
the journals hydrated from merged rows with `apc = false` whose normalized
area-id set meets the requested areas (vacuous when the normalized request
is empty) and which have a linked category matching the category/quartile
conjunction (each conjunct vacuous when its request is empty); on the §8.6
example data the call `(["bio"], ["C1"], ["Q1"])` returns only journal
`"A"`. -/
theorem diamond_journals_spec :
    (∀ (e : Engine) (areas categories quartiles : List String) (j : Journal),
      (j ∈ getDiamondJournalsInAreasAndCategoriesWithQuartile e areas categories quartiles)
      ↔ (∃ r ∈ _journal_dataframe e, r.apc = false
          ∧ j = hydrateRow (_build_taxonomy e.categoryQuery).1
              (_build_taxonomy e.categoryQuery).2.1
              ((_build_taxonomy e.categoryQuery).2.2).journal_alias
              ((_build_taxonomy e.categoryQuery).2.2).journal_categories
              ((_build_taxonomy e.categoryQuery).2.2).journal_areas r)
        ∧ ((normSet areas = [] ∨ ∃ a ∈ j.areas, _norm a.id ∈ normSet areas)
           ∧ ∃ c ∈ j.categories,
               (normSet categories = [] ∨ _norm c.id ∈ normSet categories)
               ∧ (normSet quartiles = []
                  ∨ ∃ q ∈ c.quartiles, _norm q ∈ normSet quartiles)))
    ∧ (getDiamondJournalsInAreasAndCategoriesWithQuartile exampleEngine
        ["bio"] ["C1"] ["Q1"]).map (fun j => j.id) = ["A"] := by
  refine ⟨?_, by decide⟩
  intro e areas categories quartiles j
  have hobj : ∀ frame, _build_journal_objects e.categoryQuery frame
      = frame.map (hydrateRow (_build_taxonomy e.categoryQuery).1
          (_build_taxonomy e.categoryQuery).2.1
          ((_build_taxonomy e.categoryQuery).2.2).journal_alias
          ((_build_taxonomy e.categoryQuery).2.2).journal_categories
          ((_build_taxonomy e.categoryQuery).2.2).journal_areas) := fun _ => rfl
  unfold getDiamondJournalsInAreasAndCategoriesWithQuartile
  dsimp only
  rw [List.mem_filter]
  constructor
  · rintro ⟨hmem, hpred⟩
    rw [hobj] at hmem
    obtain ⟨r, hr, hjr⟩ := List.mem_map.mp hmem
    rw [List.mem_filter] at hr
    exact ⟨⟨r, hr.1, beq_iff_eq.mp hr.2, hjr.symm⟩,
      (diamondPredB_iff (normSet areas) (normSet categories) (normSet quartiles) j).mp hpred⟩
  · rintro ⟨⟨r, hrdf, hapc, hjr⟩, hpred⟩
    refine ⟨?_, (diamondPredB_iff (normSet areas) (normSet categories)
      (normSet quartiles) j).mpr hpred⟩
    rw [hobj]
    exact List.mem_map.mpr ⟨r, List.mem_filter.mpr ⟨hrdf, by rw [hapc]; rfl⟩, hjr.symm⟩
